import Mathlib

/-!
Verification development for the `error-correcting-codes` repository.

The Python sources `linear_block_codes.py` and `adinkra_graphs.py` are
shallowly embedded below: binary vectors and matrices become `List Nat`
and `List (List Nat)` with explicit `% 2` arithmetic (mirroring numpy's
`% 2` reductions in the source), fallible operations (Python
`raise ValueError`) become `Option`-valued functions, and Python sets
become lists with membership-checked insertion.
-/

namespace ECC

/-! ### Embedding of `linear_block_codes.py` -/

/-- `np.array(v, dtype=int) % 2`: reduce a vector mod 2 on intake. -/
def mod2v (v : List Nat) : List Nat := v.map (fun x => x % 2)

/-- `np.array(G, dtype=int) % 2`: reduce a matrix mod 2 on intake
(`LinearBlockCode.__init__`, line 29). -/
def mod2m (M : List (List Nat)) : List (List Nat) := M.map mod2v

/-- `self.k`: the row count of the stored generator matrix (`G.shape[0]`). -/
def kOf (G : List (List Nat)) : Nat := G.length

/-- `self.n`: the column count of the stored generator matrix (`G.shape[1]`);
for the rectangular matrices numpy accepts this is the common row length. -/
def nOf (G : List (List Nat)) : Nat := (G.headD []).length

/-- The matrix product `(msg % 2) @ G % 2` of `LinearBlockCode.encode`
(line 119), without the length check. -/
def encodeRaw (G : List (List Nat)) (message : List Nat) : List Nat :=
  let m := mod2v message
  (List.range (nOf G)).map (fun j =>
    (((List.range (kOf G)).map (fun i => m.getD i 0 * (G.getD i []).getD j 0)).sum) % 2)

/-- `LinearBlockCode.encode`: raises (`none`) iff `len(message) != self.k`
(line 116), otherwise returns `(msg @ G) % 2`. -/
def encode (G : List (List Nat)) (message : List Nat) : Option (List Nat) :=
  if message.length ≠ kOf G then none else some (encodeRaw G message)

/-- `np.eye(n, dtype=int)` (line 42). -/
def eyeN (n : Nat) : List (List Nat) :=
  (List.range n).map (fun i => (List.range n).map (fun j => if i = j then 1 else 0))

/-- The pivot search of `_compute_parity_check_matrix` (lines 47-52): the
first row index `j ∈ [i+1, k)` whose entry in column `i` is `1`, defaulting
to `i` itself when none is found. -/
def findPivotRow (A : List (List Nat)) (i k : Nat) : Nat :=
  match ((List.range k).drop (i + 1)).find? (fun j => (A.getD j []).getD i 0 == 1) with
  | some j => j
  | none => i

/-- Row swap `augmented[[i, pivot_row]] = augmented[[pivot_row, i]]` (line 59);
only invoked with `i ≠ j`. -/
def swapRows (A : List (List Nat)) (i j : Nat) : List (List Nat) :=
  (A.set i (A.getD j [])).set j (A.getD i [])

/-- `augmented[j] = (augmented[j] + augmented[i]) % 2` (line 64). -/
def addRowInto (A : List (List Nat)) (i j : Nat) : List (List Nat) :=
  A.set j (List.zipWith (fun a b => (a + b) % 2) (A.getD j []) (A.getD i []))

/-- One iteration `i` of the elimination loop of
`_compute_parity_check_matrix` (lines 46-64): find a pivot, skip the column
if the pivot entry is `0`, otherwise swap the pivot row into place and add
row `i` into every other row `j < k` having a `1` in column `i`. -/
def elimStep (k : Nat) (A : List (List Nat)) (i : Nat) : List (List Nat) :=
  let pr := findPivotRow A i k
  if (A.getD pr []).getD i 0 = 0 then A
  else
    let A1 := if pr ≠ i then swapRows A i pr else A
    (List.range k).foldl (fun B j =>
      if j ≠ i ∧ (B.getD j []).getD i 0 = 1 then addRowInto B i j else B) A1

/-- The full Gaussian elimination of `_compute_parity_check_matrix` on the
stacked matrix `np.vstack([G, I_n])` (lines 42-64). -/
def gaussElim (G : List (List Nat)) : List (List Nat) :=
  (List.range (kOf G)).foldl (elimStep (kOf G)) (G ++ eyeN (nOf G))

/-- `LinearBlockCode._compute_parity_check_matrix` (lines 36-90): run the
elimination, then for each column `i ∈ [k, n)` emit the row whose first `k`
entries are column `i` of the reduced top block and whose only other `1`
sits at position `i`.  When `n = k` the Python code returns a matrix with
zero rows, embedded here as `[]`.  This total version captures the `k ≤ n`
behaviour; for `k > n` the Python method raises IndexError, modelled by
`compute_parity_check_matrixM` below. -/
def compute_parity_check_matrix (G : List (List Nat)) : List (List Nat) :=
  let k := kOf G
  let n := nOf G
  let A := gaussElim G
  if n - k > 0 then
    (List.range (n - k)).map (fun t =>
      (List.range n).map (fun j =>
        if j < k then (A.getD j []).getD (k + t) 0
        else if j = k + t then 1 else 0))
  else []

/-- The elimination loop of `_compute_parity_check_matrix` with its
IndexError modelled: iteration `i` reads `augmented[j, i]` during the pivot
search (line 50) and `augmented[pivot_row, i]` (line 54), an out-of-bounds
column access as soon as `i ≥ n`, so the loop raises at the first such `i`;
the iterations with `i < n` read and write only in-bounds entries and are
exactly `elimStep`. -/
def gaussElimM (k n : Nat) (A : List (List Nat)) : Option (List (List Nat)) :=
  (List.range k).foldlM (fun M i => if i < n then some (elimStep k M i) else none) A

/-- `_compute_parity_check_matrix` (lines 36-90) with its raise modelled
(`none`): the extraction after the elimination only reads in-bounds entries,
so the method raises exactly when the elimination loop does. -/
def compute_parity_check_matrixM (G : List (List Nat)) : Option (List (List Nat)) :=
  (gaussElimM (kOf G) (nOf G) (G ++ eyeN (nOf G))).map (fun A =>
    if nOf G - kOf G > 0 then
      (List.range (nOf G - kOf G)).map (fun t =>
        (List.range (nOf G)).map (fun j =>
          if j < kOf G then (A.getD j []).getD (kOf G + t) 0
          else if j = kOf G + t then 1 else 0))
    else [])

/-- `LinearBlockCode.__init__` (lines 22-34): stores `np.array(G) % 2`,
computes the (total) minimum distance and then the parity-check matrix, so
the constructor raises exactly when `_compute_parity_check_matrix` does;
the value kept here is the stored generator matrix `self.G`. -/
def mkLinearBlockCode (G : List (List Nat)) : Option (List (List Nat)) :=
  (compute_parity_check_matrixM (mod2m G)).map (fun _ => mod2m G)

/-- The matrix product `(recv % 2) @ H.T % 2` of `LinearBlockCode.syndrome`
(line 135), without the length check. -/
def syndromeRaw (G : List (List Nat)) (received : List Nat) : List Nat :=
  let r := mod2v received
  (compute_parity_check_matrix G).map (fun hrow =>
    ((List.zipWith (fun a b => a * b) r hrow).sum) % 2)

/-- `LinearBlockCode.syndrome`: raises (`none`) iff `len(received) != self.n`
(line 132), otherwise returns `(recv @ H.T) % 2`. -/
def syndrome (G : List (List Nat)) (received : List Nat) : Option (List Nat) :=
  if received.length ≠ nOf G then none else some (syndromeRaw G received)

/-- `LinearBlockCode.is_codeword` (lines 145-148): `np.all(syndrome == 0)`,
propagating the length error of `syndrome`. -/
def is_codeword (G : List (List Nat)) (word : List Nat) : Option Bool :=
  (syndrome G word).map (fun s => s.all (fun x => x == 0))

/-- The `t`-th of the `r` MSB-first base-2 digits of `x`; `bitsOf r x` is
`format(x, f'0{r}b')` as a digit list, and also the `x`-th tuple produced by
`itertools.product([0, 1], repeat=r)`. -/
def bitsOf (r x : Nat) : List Nat :=
  (List.range r).map (fun t => x / 2 ^ (r - 1 - t) % 2)

/-- `LinearBlockCode.get_all_codewords` (lines 137-143): encode every
message tuple of `itertools.product([0, 1], repeat=k)` in order.  Each
message has length `k`, so the internal `encode` call never raises. -/
def get_all_codewords (G : List (List Nat)) : List (List Nat) :=
  (List.range (2 ^ kOf G)).map (fun i => encodeRaw G (bitsOf (kOf G) i))

/-- `np.sum((ci + cj) % 2)` (line 99): the Hamming distance of two binary
vectors. -/
def hammingDist (x y : List Nat) : Nat :=
  (List.zipWith (fun a b => (a + b) % 2) x y).sum

/-- `LinearBlockCode._compute_minimum_distance` (lines 92-103): the minimum
over all index pairs `i < j` of the Hamming distance of codewords `i` and
`j`, starting from the sentinel `n + 1`. -/
def compute_minimum_distance (G : List (List Nat)) : Nat :=
  let cws := get_all_codewords G
  (List.range cws.length).foldl (fun acc i =>
    ((List.range cws.length).drop (i + 1)).foldl (fun acc2 j =>
      if hammingDist (cws.getD i []) (cws.getD j []) < acc2
      then hammingDist (cws.getD i []) (cws.getD j []) else acc2) acc) (nOf G + 1)

/-- Entry `(b, j)` of the Hamming parity-check matrix built in
`hamming_code` (lines 185-190): after `np.array(H).T`, entry `(b, j)` is
the `b`-th MSB-first bit of `format(j + 1, f'0{r}b')`. -/
def hammingHent (r b j : Nat) : Nat := (j + 1) / 2 ^ (r - 1 - b) % 2

/-- Column `j` (0-based) of the Hamming parity-check matrix: the MSB-first
`r`-bit binary representation of `j + 1`. -/
def hammingHcol (r j : Nat) : List Nat := bitsOf r (j + 1)

/-- The unit column `col` with `col[b] = 1` built at line 196-197. -/
def unitCol (r b : Nat) : List Nat := (List.range r).map (fun t => if t = b then 1 else 0)

/-- `identity_cols` (lines 194-201): for each `b < r`, the first column
index `j < n` whose column equals the unit column `e_b`; indices for which
the search fails are not appended. -/
def identityCols (r : Nat) : List Nat :=
  (List.range r).filterMap (fun b =>
    (List.range (2 ^ r - 1)).find? (fun j => hammingHcol r j == unitCol r b))

/-- `info_positions` (line 205): the column indices not used as parity
positions, in ascending order. -/
def infoPositions (r : Nat) : List Nat :=
  (List.range (2 ^ r - 1)).filter (fun j => !(identityCols r).contains j)

/-- The systematic generator matrix assembled in `hamming_code`
(lines 204-214): row `i` has a `1` at its information position
`info_positions[i]`, carries `H[t, info_positions[i]]` at the parity
position `identity_cols[t]`, and is `0` elsewhere.  (In the source the
information bit is written first and the parity bits afterwards; the two
position sets are disjoint, so the combined conditional below is the same
assignment.) -/
def hammingG (r : Nat) : List (List Nat) :=
  let n := 2 ^ r - 1
  let idC := identityCols r
  let infoP := infoPositions r
  (List.range (n - r)).map (fun i =>
    (List.range n).map (fun c =>
      if c = infoP.getD i 0 then 1
      else
        match idC.indexOf? c with
        | some t => hammingHent r t (infoP.getD i 0)
        | none => 0))

/-- `hamming_code` (lines 168-216): raises (`none`) iff `r < 2`, otherwise
constructs the `LinearBlockCode` whose generator matrix is `hammingG r`
(its `H` and `d` are the derived `compute_parity_check_matrix` and
`compute_minimum_distance` of that matrix). -/
def hamming_code (r : Nat) : Option (List (List Nat)) :=
  if r < 2 then none else some (hammingG r)

/-- `repetition_code` (lines 219-233): raises (`none`) iff `n < 1`,
otherwise the single all-ones generator row `np.ones((1, n))`. -/
def repetition_code (n : Nat) : Option (List (List Nat)) :=
  if n < 1 then none else some [List.replicate n 1]

/-- The `k × (k+1)` generator matrix assembled in `parity_check_code`
(lines 249-257): `G[i, i] = 1` and `G[i, k] = 1`, all else `0`. -/
def parityG (k : Nat) : List (List Nat) :=
  (List.range k).map (fun i =>
    (List.range (k + 1)).map (fun j => if j = i then 1 else if j = k then 1 else 0))

/-- `parity_check_code` (lines 236-259): raises (`none`) iff `k < 1`,
otherwise the generator `parityG k`. -/
def parity_check_code (k : Nat) : Option (List (List Nat)) :=
  if k < 1 then none else some (parityG k)

/-! ### Embedding of `adinkra_graphs.py`

Python's derived string identities are embedded structurally: `AdinkraNode.id`
is `f"{field_type.value}_{field_name}_{position}"`, an injective image of the
triple `(field_type, field_name, position)`, so node identity is structural
equality of that triple; likewise `AdinkraEdge.id` is an injective image of
`(source, target, color, dashed)`.  The `field_name` strings produced by the
factories (digit strings of the position) are embedded as the digit lists
themselves.  Python `set`s become lists with membership-checked insertion;
set iteration order becomes insertion order (the source's iteration order is
an unspecified implementation detail, and no property proved below depends
on it). -/

inductive FieldType where
  | BOSONIC
  | FERMIONIC
  deriving DecidableEq

inductive EdgeColor where
  | RED
  | GREEN
  | BLUE
  | YELLOW
  deriving DecidableEq

/-- The integer value of each `EdgeColor` enum member. -/
def EdgeColor.value : EdgeColor → Nat
  | .RED => 0
  | .GREEN => 1
  | .BLUE => 2
  | .YELLOW => 3

/-- `list(EdgeColor)`: the fixed color palette in enumeration order. -/
def allColors : List EdgeColor := [.RED, .GREEN, .BLUE, .YELLOW]

structure AdinkraNode where
  field_type : FieldType
  position : List Nat
  field_name : List Nat
  deriving DecidableEq

structure AdinkraEdge where
  source : AdinkraNode
  target : AdinkraNode
  color : EdgeColor
  dashed : Bool
  deriving DecidableEq

/-- `AdinkraEdge.__post_init__` (lines 60-65): constructing an edge whose
endpoints share a field type raises `ValueError` (`none`). -/
def mkAdinkraEdge (s t : AdinkraNode) (c : EdgeColor) (d : Bool) : Option AdinkraEdge :=
  if s.field_type = t.field_type then none else some ⟨s, t, c, d⟩

structure AdinkraGraph where
  dimension : Nat
  nodes : List AdinkraNode
  edges : List AdinkraEdge
  bosonic_nodes : List AdinkraNode
  fermionic_nodes : List AdinkraNode

/-- `AdinkraGraph.__init__` (lines 97-111). -/
def emptyGraph (dimension : Nat) : AdinkraGraph :=
  { dimension := dimension, nodes := [], edges := [], bosonic_nodes := [], fermionic_nodes := [] }

/-- `self.available_colors = list(EdgeColor)[:dimension]` (line 111). -/
def available_colors (g : AdinkraGraph) : List EdgeColor := allColors.take g.dimension

/-- Python `set.add`: insert unless already present. -/
def insertNode (l : List AdinkraNode) (x : AdinkraNode) : List AdinkraNode :=
  if l.contains x then l else l ++ [x]

/-- Python `set.add` for edges. -/
def insertEdge (l : List AdinkraEdge) (x : AdinkraEdge) : List AdinkraEdge :=
  if l.contains x then l else l ++ [x]

/-- `AdinkraGraph.add_node` (lines 113-119). -/
def add_node (g : AdinkraGraph) (node : AdinkraNode) : AdinkraGraph :=
  { g with
    nodes := insertNode g.nodes node
    bosonic_nodes :=
      if node.field_type = .BOSONIC then insertNode g.bosonic_nodes node else g.bosonic_nodes
    fermionic_nodes :=
      if node.field_type = .BOSONIC then g.fermionic_nodes
      else insertNode g.fermionic_nodes node }

/-- `AdinkraGraph.add_edge` (lines 121-129): raises (`none`) when the
edge's color is outside the available colors, otherwise inserts both
endpoints and then the edge. -/
def add_edge (g : AdinkraGraph) (e : AdinkraEdge) : Option AdinkraGraph :=
  if ¬ (available_colors g).contains e.color then none
  else
    let g1 := add_node (add_node g e.source) e.target
    some { g1 with edges := insertEdge g1.edges e }

/-- Stable insertion of an element into a sorted list. -/
def insertSorted (le : α → α → Bool) (x : α) : List α → List α
  | [] => [x]
  | y :: ys => if le x y then x :: y :: ys else y :: insertSorted le x ys

/-- Stable insertion sort; embeds Python's (stable) `sorted`. -/
def sortBy (le : α → α → Bool) : List α → List α
  | [] => []
  | x :: xs => insertSorted le x (sortBy le xs)

/-- Lexicographic comparison of digit lists; stands in for Python's string
comparison of the formatted node ids in `sorted(..., key=lambda x: x.id)`.
No property proved in this file depends on the resulting order. -/
def lexLe : List Nat → List Nat → Bool
  | [], _ => true
  | _ :: _, [] => false
  | a :: as, b :: bs => if a < b then true else if b < a then false else lexLe as bs

/-- Order stand-in for the Python id string `f"{field_type}_{name}_{position}"`. -/
def nodeLe (a b : AdinkraNode) : Bool :=
  if a.field_name = b.field_name then lexLe a.position b.position
  else lexLe a.field_name b.field_name

/-- `sorted(list(nodes), key=lambda x: x.id)` (lines 142-143). -/
def sortedNodes (l : List AdinkraNode) : List AdinkraNode := sortBy nodeLe l

/-- Write entry `(i, j)` of an integer matrix. -/
def setEntry (M : List (List Int)) (i j : Nat) (v : Int) : List (List Int) :=
  M.set i ((M.getD i []).set j v)

/-- `AdinkraGraph.get_adjacency_matrix` (lines 131-165): start from a
`|bosonic| × |fermionic|` zero matrix and, for each edge of the requested
color, write `-1` (dashed) or `1` at the (bosonic row, fermionic column)
cell; edges whose endpoints are not found in the sorted lists are skipped
(the `except ValueError: continue`). -/
def get_adjacency_matrix (g : AdinkraGraph) (color : EdgeColor) : List (List Int) :=
  let bos := sortedNodes g.bosonic_nodes
  let fer := sortedNodes g.fermionic_nodes
  let zeros : List (List Int) :=
    (List.range bos.length).map (fun _ => (List.range fer.length).map (fun _ => 0))
  g.edges.foldl (fun M e =>
    if e.color ≠ color then M
    else
      let bEnd := if e.source.field_type = .BOSONIC then e.source else e.target
      let fEnd := if e.target.field_type = .FERMIONIC then e.target else e.source
      match bos.indexOf? bEnd, fer.indexOf? fEnd with
      | some i, some j => setEntry M i j (if e.dashed then -1 else 1)
      | _, _ => M) zeros

/-- `(np.abs(adj_matrix).flatten() > 0).astype(int)` (line 185). -/
def structureBits (g : AdinkraGraph) (color : EdgeColor) : List Nat :=
  ((get_adjacency_matrix g color).flatten).map (fun x => if 0 < |x| then 1 else 0)

/-- The dashing bit vector of `to_codeword_representation` (lines 188-197):
one bit per edge of the color in iteration order, zero-padded and then
truncated to the target length. -/
def dashingBits (g : AdinkraGraph) (color : EdgeColor) (len : Nat) : List Nat :=
  let bits := (g.edges.filter (fun e => e.color = color)).map (fun e => if e.dashed then 1 else 0)
  (bits ++ List.replicate (len - bits.length) 0).take len

/-- The codeword row `np.concatenate([structure_bits, dashing_array])` that
`to_codeword_representation` assigns to one color (lines 179-201). -/
def to_codeword_row (g : AdinkraGraph) (color : EdgeColor) : List Nat :=
  let s := structureBits g color
  s ++ dashingBits g color s.length

/-- `AdinkraGraph.to_codeword_representation` (lines 167-203): the dict
mapping each available color to its codeword row. -/
def to_codeword_representation (g : AdinkraGraph) : List (EdgeColor × List Nat) :=
  (available_colors g).map (fun c => (c, to_codeword_row g c))

/-- `AdinkraGraph.check_adinkra_rules` result record (lines 205-239). -/
structure RuleResults where
  bipartite : Bool
  color_completeness : Bool
  dashing_consistent : Bool

/-- `AdinkraGraph.check_adinkra_rules` (lines 205-239). -/
def check_adinkra_rules (g : AdinkraGraph) : RuleResults :=
  { bipartite := g.edges.all (fun e => !(e.source.field_type == e.target.field_type))
    color_completeness := g.nodes.all (fun node =>
      (((g.edges.filter (fun e => e.source = node ∨ e.target = node)).map
          (fun e => e.color)).dedup).length == (available_colors g).length)
    dashing_consistent := true }

/-- `sorted(self.available_colors, key=lambda x: x.value)` (line 273). -/
def sortColorsByValue (l : List EdgeColor) : List EdgeColor :=
  sortBy (fun a b => decide (a.value ≤ b.value)) l

/-- `AdinkraGraph.to_linear_code` (lines 259-289): raises (`none`) when the
codeword dict is empty or no generator rows were stacked, stacks one row
per available color in ascending color value, zero-pads every row to the
maximum row length and hands the matrix to the `LinearBlockCode`
constructor (line 289), which itself raises when it has more rows than
columns (see `mkLinearBlockCode`); the kept value is the constructed
code's stored generator matrix. -/
def to_linear_code (g : AdinkraGraph) : Option (List (List Nat)) :=
  let codewords := to_codeword_representation g
  if codewords.isEmpty then none
  else
    let generatorRows := (sortColorsByValue (available_colors g)).filterMap
      (fun c => codewords.lookup c)
    if generatorRows.isEmpty then none
    else
      let maxLen := (generatorRows.map List.length).foldl max 0
      mkLinearBlockCode
        (generatorRows.map (fun row => row ++ List.replicate (maxLen - row.length) 0))

/-- The hypercube vertex list `itertools.product([0, 1], repeat=dimension)`
(line 350), in MSB-first counting order. -/
def hypercubeVertices (dim : Nat) : List (List Nat) :=
  (List.range (2 ^ dim)).map (fun i => bitsOf dim i)

/-- The node `create_hypercube_adinkra` builds for a vertex (lines 352-360):
bosonic iff the vertex has even popcount; the Python `field_name` is the
digit string of the vertex, embedded as the digit list. -/
def hypercubeNode (v : List Nat) : AdinkraNode :=
  { field_type := if v.sum % 2 = 0 then .BOSONIC else .FERMIONIC
    position := v
    field_name := v }

/-- The edge loop body of `create_hypercube_adinkra` for one vertex
(lines 365-382): for each axis `i`, flip bit `i`, look the neighbour up in
the vertex dict, pick `available_colors[i]` (an out-of-range index raises,
i.e. `none`), construct the edge (dashed iff `vertex[i] == 1`) and add it. -/
def hypercubeEdgeStep (verts : List (List Nat)) (dim : Nat) (g : AdinkraGraph)
    (v : List Nat) : Option AdinkraGraph :=
  (List.range dim).foldlM (fun g' i =>
    let adj := v.set i (1 - v.getD i 0)
    if verts.contains adj then
      match (allColors.take dim)[i]? with
      | none => none
      | some color =>
        match mkAdinkraEdge (hypercubeNode v) (hypercubeNode adj) color (v.getD i 0 == 1) with
        | none => none
        | some e => add_edge g' e
    else some g') g

/-- `create_hypercube_adinkra` (lines 334-384): add one node per hypercube
vertex, then run the edge loop over every vertex. -/
def create_hypercube_adinkra (dim : Nat) : Option AdinkraGraph :=
  let verts := hypercubeVertices dim
  let g1 := verts.foldl (fun g v => add_node g (hypercubeNode v)) (emptyGraph dim)
  verts.foldlM (hypercubeEdgeStep verts dim) g1

/-! ### Auxiliary definitions used by the statements -/

/-- Rectangularity: the shape constraint `np.array` imposes on a generator
matrix (every row has the common length `n`). -/
def Rect (G : List (List Nat)) : Prop := ∀ row ∈ G, row.length = nOf G

/-- Componentwise XOR of two bit vectors, written as `(a + b) % 2`. -/
def xorv (a b : List Nat) : List Nat := List.zipWith (fun x y => (x + y) % 2) a b

/-- The numeric value of an MSB-first bit list (inverse of `bitsOf`). -/
def valBits (bs : List Nat) : Nat := bs.foldl (fun acc b => 2 * acc + b) 0

/-- The list of Hamming distances over all codeword index pairs `i < j`, in
the iteration order of `_compute_minimum_distance`; its minimum is the
claim's "minimum pairwise Hamming distance". -/
def pairDistList (G : List (List Nat)) : List Nat :=
  let cws := get_all_codewords G
  ((List.range cws.length).map (fun i =>
    ((List.range cws.length).drop (i + 1)).map (fun j =>
      hammingDist (cws.getD i []) (cws.getD j [])))).flatten

/-- Graph construction steps: the public mutation surface of `AdinkraGraph`. -/
inductive GraphOp where
  | addNodeOp (node : AdinkraNode)
  | addEdgeOp (s t : AdinkraNode) (c : EdgeColor) (d : Bool)

/-- Apply one construction step; `addEdgeOp` first runs the `AdinkraEdge`
constructor (which can raise) and then `add_edge` (which can raise). -/
def applyOp (g : AdinkraGraph) : GraphOp → Option AdinkraGraph
  | .addNodeOp node => some (add_node g node)
  | .addEdgeOp s t c d =>
    match mkAdinkraEdge s t c d with
    | none => none
    | some e => add_edge g e

/-- A graph built only through `add_node`/`add_edge` from an empty graph. -/
def buildGraph (dim : Nat) (ops : List GraphOp) : Option AdinkraGraph :=
  ops.foldlM applyOp (emptyGraph dim)

end ECC

namespace ECC

/-! ### Generic helper lemmas -/

theorem list_sum_range (f : Nat → Nat) (n : Nat) :
    ((List.range n).map f).sum = ∑ j ∈ Finset.range n, f j := by
  induction n with
  | zero => simp
  | succ m ih =>
    rw [List.range_succ, Finset.sum_range_succ, List.map_append, List.sum_append, ih]
    simp

theorem foldl_min_le_init (l : List Nat) (a : Nat) : l.foldl min a ≤ a := by
  induction l generalizing a with
  | nil => simp
  | cons x xs ih => exact le_trans (ih (min a x)) (min_le_left a x)

theorem foldl_min_le_mem {x : Nat} :
    ∀ (l : List Nat), x ∈ l → ∀ a : Nat, l.foldl min a ≤ x := by
  intro l
  induction l with
  | nil => intro h; cases h
  | cons y ys ih =>
    intro hmem a
    rcases List.mem_cons.mp hmem with h | h
    · subst h
      exact le_trans (foldl_min_le_init ys (min a x)) (min_le_right a x)
    · exact ih h (min a y)

theorem foldl_min_mem_or_init :
    ∀ (l : List Nat) (a : Nat), l.foldl min a = a ∨ l.foldl min a ∈ l := by
  intro l
  induction l with
  | nil => intro a; left; rfl
  | cons x xs ih =>
    intro a
    rcases ih (min a x) with h | h
    · rcases Nat.le_total a x with hax | hxa
      · left; rw [List.foldl_cons, h, Nat.min_eq_left hax]
      · right; rw [List.foldl_cons, h, Nat.min_eq_right hxa]; exact List.mem_cons_self x xs
    · right; exact List.mem_cons_of_mem x h

theorem le_foldl_min {B : Nat} :
    ∀ (l : List Nat) (a : Nat), B ≤ a → (∀ x ∈ l, B ≤ x) → B ≤ l.foldl min a := by
  intro l
  induction l with
  | nil => intro a ha _; exact ha
  | cons x xs ih =>
    intro a ha hall
    exact ih (min a x) (le_min ha (hall x (List.mem_cons_self x xs)))
      (fun y hy => hall y (List.mem_cons_of_mem x hy))

theorem sum_le_length (l : List Nat) (h : ∀ x ∈ l, x ≤ 1) : l.sum ≤ l.length := by
  induction l with
  | nil => simp
  | cons x xs ih =>
    simp only [List.sum_cons, List.length_cons]
    have hx := h x (List.mem_cons_self x xs)
    have := ih (fun y hy => h y (List.mem_cons_of_mem x hy))
    omega

theorem foldl_val_shift (bs : List Nat) (a : Nat) :
    bs.foldl (fun acc b => 2 * acc + b) a
      = a * 2 ^ bs.length + bs.foldl (fun acc b => 2 * acc + b) 0 := by
  induction bs generalizing a with
  | nil => simp
  | cons b bs ih =>
    simp only [List.foldl_cons, List.length_cons]
    rw [ih (2 * a + b), ih (2 * 0 + b)]
    ring

theorem valBits_cons (b : Nat) (bs : List Nat) :
    valBits (b :: bs) = b * 2 ^ bs.length + valBits bs := by
  unfold valBits
  rw [List.foldl_cons, foldl_val_shift]
  ring

theorem bitsOf_length (r x : Nat) : (bitsOf r x).length = r := by
  simp [bitsOf]

theorem div_pow_mod_two (x r u : Nat) (h : u < r) :
    x / 2 ^ u % 2 = x % 2 ^ r / 2 ^ u % 2 := by
  conv_lhs => rw [← Nat.div_add_mod x (2 ^ r)]
  have hsplit : 2 ^ r = 2 ^ u * 2 ^ (r - u) := by
    rw [← pow_add]
    congr 1
    omega
  have hpos : 0 < 2 ^ u := Nat.pos_pow_of_pos u (by norm_num)
  rw [hsplit]
  have hre : 2 ^ u * 2 ^ (r - u) * (x / (2 ^ u * 2 ^ (r - u))) + x % (2 ^ u * 2 ^ (r - u))
      = x % (2 ^ u * 2 ^ (r - u)) + 2 ^ (r - u) * (x / (2 ^ u * 2 ^ (r - u))) * 2 ^ u := by
    ring
  rw [hre, Nat.add_mul_div_right _ _ hpos]
  have heven : 2 ^ (r - u) * (x / (2 ^ u * 2 ^ (r - u))) % 2 = 0 := by
    have h2 : 2 ^ (r - u) = 2 * 2 ^ (r - u - 1) := by
      rw [← pow_succ']
      congr 1
      omega
    rw [h2, Nat.mul_assoc, Nat.mul_mod_right]
  omega

theorem bitsOf_succ (r x : Nat) :
    bitsOf (r + 1) x = (x / 2 ^ r % 2) :: bitsOf r (x % 2 ^ r) := by
  unfold bitsOf
  rw [List.range_succ_eq_map, List.map_cons, List.map_map]
  have htail : List.map ((fun t => x / 2 ^ (r + 1 - 1 - t) % 2) ∘ Nat.succ) (List.range r)
      = List.map (fun t => x % 2 ^ r / 2 ^ (r - 1 - t) % 2) (List.range r) := by
    apply List.map_congr_left
    intro t ht
    have ht' : t < r := List.mem_range.mp ht
    simp only [Function.comp_apply, Nat.succ_eq_add_one]
    have h1 : r + 1 - 1 - (t + 1) = r - 1 - t := by omega
    rw [h1]
    exact div_pow_mod_two x r (r - 1 - t) (by omega)
  rw [htail]
  norm_num

theorem valBits_bitsOf (r : Nat) : ∀ x : Nat, x < 2 ^ r → valBits (bitsOf r x) = x := by
  induction r with
  | zero =>
    intro x hx
    interval_cases x
    rfl
  | succ r ih =>
    intro x hx
    rw [bitsOf_succ, valBits_cons, bitsOf_length,
      ih (x % 2 ^ r) (Nat.mod_lt x (Nat.pos_pow_of_pos r (by norm_num)))]
    have hdivlt : x / 2 ^ r < 2 := by
      apply Nat.div_lt_of_lt_mul
      rw [pow_succ] at hx
      omega
    rw [Nat.mod_eq_of_lt hdivlt, Nat.mul_comm (x / 2 ^ r) (2 ^ r)]
    exact Nat.div_add_mod x (2 ^ r)

theorem bitsOf_inj {r x y : Nat} (hx : x < 2 ^ r) (hy : y < 2 ^ r)
    (h : bitsOf r x = bitsOf r y) : x = y := by
  rw [← valBits_bitsOf r x hx, ← valBits_bitsOf r y hy, h]

theorem bitsOf_getElem (r x t : Nat) (h : t < (bitsOf r x).length) :
    (bitsOf r x)[t] = x / 2 ^ (r - 1 - t) % 2 := by
  simp [bitsOf]

theorem bitsOf_entry_lt (r x : Nat) : ∀ b ∈ bitsOf r x, b < 2 := by
  intro b hb
  simp only [bitsOf, List.mem_map] at hb
  obtain ⟨t, _, rfl⟩ := hb
  exact Nat.mod_lt _ (by norm_num)

theorem bitsOf_zero (r : Nat) : bitsOf r 0 = List.replicate r 0 := by
  rw [List.eq_replicate_iff]
  refine ⟨bitsOf_length r 0, ?_⟩
  intro b hb
  simp only [bitsOf, List.mem_map] at hb
  obtain ⟨t, _, rfl⟩ := hb
  simp

theorem bitsOf_two_pow {r b : Nat} (hb : b < r) :
    bitsOf r (2 ^ (r - 1 - b)) = unitCol r b := by
  unfold bitsOf unitCol
  apply List.map_congr_left
  intro t ht
  have ht' : t < r := List.mem_range.mp ht
  rcases Nat.lt_trichotomy t b with hlt | heq | hgt
  · rw [if_neg (by omega)]
    have hexp : r - 1 - b < r - 1 - t := by omega
    have : (2 : Nat) ^ (r - 1 - b) < 2 ^ (r - 1 - t) :=
      Nat.pow_lt_pow_right (by norm_num) hexp
    rw [Nat.div_eq_of_lt this]
  · subst heq
    rw [if_pos rfl, Nat.div_self (Nat.pos_pow_of_pos _ (by norm_num))]
  · rw [if_neg (by omega)]
    have hexp : r - 1 - t ≤ r - 1 - b := by omega
    rw [Nat.pow_div hexp (by norm_num)]
    have hsub : r - 1 - b - (r - 1 - t) = t - b := by omega
    rw [hsub]
    have h2 : (2 : Nat) ^ (t - b) = 2 * 2 ^ (t - b - 1) := by
      rw [← pow_succ']
      congr 1
      omega
    rw [h2, Nat.mul_mod_right]

theorem unitCol_length (r b : Nat) : (unitCol r b).length = r := by
  simp [unitCol]

theorem find?_range_eq_some {p : Nat → Bool} {m n : Nat} (hm : m < n)
    (hlt : ∀ x < m, p x = false) (hp : p m = true) :
    (List.range n).find? p = some m := by
  have hsplit : n = (m + 1) + (n - m - 1) := by omega
  rw [hsplit, List.range_add, List.find?_append, List.range_succ, List.find?_append]
  have h1 : (List.range m).find? p = none := by
    rw [List.find?_eq_none]
    intro x hx
    simp [hlt x (List.mem_range.mp hx)]
  rw [h1]
  simp [List.find?_cons, hp]

theorem sum_map_add (l : List Nat) (f g : Nat → Nat) :
    (l.map (fun x => f x + g x)).sum = (l.map f).sum + (l.map g).sum := by
  induction l with
  | nil => rfl
  | cons x xs ih =>
    simp only [List.map_cons, List.sum_cons, ih]
    ring

theorem sum_map_mod2_congr (l : List Nat) (f g : Nat → Nat)
    (h : ∀ x ∈ l, f x % 2 = g x % 2) :
    (l.map f).sum % 2 = (l.map g).sum % 2 := by
  induction l with
  | nil => rfl
  | cons x xs ih =>
    simp only [List.map_cons, List.sum_cons]
    have h1 := h x (List.mem_cons_self x xs)
    have h2 := ih (fun y hy => h y (List.mem_cons_of_mem x hy))
    omega

theorem mod2v_getD (m : List Nat) (i : Nat) : (mod2v m).getD i 0 = m.getD i 0 % 2 := by
  unfold mod2v
  rcases Nat.lt_or_ge i m.length with h | h
  · rw [List.getD_eq_getElem _ _ (by simpa using h), List.getD_eq_getElem _ _ h,
      List.getElem_map]
  · rw [List.getD_eq_default _ _ (by simpa using h), List.getD_eq_default _ _ h]

/-! ### Basic facts about `encodeRaw` and `hammingDist` -/

theorem encodeRaw_length (G : List (List Nat)) (m : List Nat) :
    (encodeRaw G m).length = nOf G := by
  simp [encodeRaw]

theorem encodeRaw_getElem (G : List (List Nat)) (m : List Nat) (j : Nat)
    (hj : j < (encodeRaw G m).length) :
    (encodeRaw G m)[j]
      = (∑ i ∈ Finset.range (kOf G), m.getD i 0 % 2 * (G.getD i []).getD j 0) % 2 := by
  unfold encodeRaw
  simp only [List.getElem_map, List.getElem_range]
  rw [← list_sum_range]
  congr 2
  apply List.map_congr_left
  intro i _
  rw [mod2v_getD]

theorem encodeRaw_entry_lt (G : List (List Nat)) (m : List Nat) :
    ∀ x ∈ encodeRaw G m, x < 2 := by
  intro x hx
  simp only [encodeRaw, List.mem_map] at hx
  obtain ⟨j, _, rfl⟩ := hx
  exact Nat.mod_lt _ (by norm_num)

theorem xorv_length (a b : List Nat) : (xorv a b).length = min a.length b.length := by
  simp [xorv]

theorem xorv_getD {a b : List Nat} {i : Nat} (hia : i < a.length) (hib : i < b.length) :
    (xorv a b).getD i 0 = (a.getD i 0 + b.getD i 0) % 2 := by
  unfold xorv
  rw [List.getD_eq_getElem _ _ (by rw [List.length_zipWith]; omega),
    List.getD_eq_getElem _ _ hia, List.getD_eq_getElem _ _ hib, List.getElem_zipWith]

theorem hammingDist_encodeRaw (G : List (List Nat)) (a b : List Nat)
    (ha : a.length = kOf G) (hb : b.length = kOf G) :
    hammingDist (encodeRaw G a) (encodeRaw G b) = (encodeRaw G (xorv a b)).sum := by
  unfold hammingDist
  unfold encodeRaw
  rw [List.zipWith_map, List.zipWith_same]
  congr 1
  apply List.map_congr_left
  intro j hj
  dsimp only
  have hadd : ((List.range (kOf G)).map (fun i => (mod2v a).getD i 0 * (G.getD i []).getD j 0)).sum
      + ((List.range (kOf G)).map (fun i => (mod2v b).getD i 0 * (G.getD i []).getD j 0)).sum
      = ((List.range (kOf G)).map (fun i =>
          ((mod2v a).getD i 0 + (mod2v b).getD i 0) * (G.getD i []).getD j 0)).sum := by
    rw [← sum_map_add]
    congr 1
    apply List.map_congr_left
    intro i _
    ring
  have hmodc : ((List.range (kOf G)).map (fun i =>
          ((mod2v a).getD i 0 + (mod2v b).getD i 0) * (G.getD i []).getD j 0)).sum % 2
      = ((List.range (kOf G)).map (fun i =>
          (mod2v (xorv a b)).getD i 0 * (G.getD i []).getD j 0)).sum % 2 := by
    apply sum_map_mod2_congr
    intro i hi
    have hi' : i < kOf G := List.mem_range.mp hi
    simp only [mod2v_getD]
    rw [xorv_getD (by omega) (by omega)]
    rw [Nat.mul_mod, Nat.mul_mod ((a.getD i 0 + b.getD i 0) % 2 % 2)]
    congr 2
    omega
  omega

theorem hammingDist_le (x y : List Nat) : hammingDist x y ≤ min x.length y.length := by
  unfold hammingDist
  have h := sum_le_length (List.zipWith (fun a b => (a + b) % 2) x y)
    (by intro z hz
        rw [List.mem_iff_getElem] at hz
        obtain ⟨i, hi, rfl⟩ := hz
        rw [List.getElem_zipWith]
        omega)
  rw [List.length_zipWith] at h
  exact h

theorem parity_check_length (G : List (List Nat)) :
    (compute_parity_check_matrix G).length = nOf G - kOf G := by
  simp only [compute_parity_check_matrix]
  split
  · simp
  · simp
    omega

/-! ### Claim C1 (code bug) -/

/-- C1: the spec's defining contract — for every accepted generator matrix
`G`, the derived `H` satisfies `G·H^T ≡ 0 (mod 2)`, equivalently
`isCodeword(encode(m))` holds for every message — is violated by the code.
For the accepted generator `G = [[0, 1]]` the Gaussian elimination never
pivots outside the leading `k` columns, so the derived parity-check matrix
is `[[1, 1]]`; the row `[0, 1]` of `G` (which is also `encode([1])`) then
has syndrome `[1] ≠ 0`, and `is_codeword(encode([1]))` is `False`. -/
theorem C1_parity_contract_violated :
    compute_parity_check_matrix [[0, 1]] = [[1, 1]] ∧
    encode [[0, 1]] [1] = some [0, 1] ∧
    syndrome [[0, 1]] [0, 1] = some [1] ∧
    is_codeword [[0, 1]] [0, 1] = some false := by
  decide

/-! ### Claim C2 (code bug) -/

/-- C2: the spec claims `syndrome(w) = 0` iff `w` lies in the row space of
`G` over GF(2).  For the accepted generator `G = [[0, 1]]` this fails in
both directions: `[0, 1] = encode([1])` is in the row space but has
syndrome `[1] ≠ 0`, while `[1, 1]` has syndrome `[0]` yet is not in the row
space (every `encode` output has first bit `0`). -/
theorem C2_syndrome_rowspace_violated :
    (∀ m : List Nat, encodeRaw [[0, 1]] m ≠ [1, 1]) ∧
    syndrome [[0, 1]] [1, 1] = some [0] ∧
    encode [[0, 1]] [1] = some [0, 1] ∧
    syndrome [[0, 1]] [0, 1] = some [1] := by
  refine ⟨?_, by decide, by decide, by decide⟩
  intro m hm
  have hlen : 0 < (encodeRaw [[0, 1]] m).length := by
    rw [encodeRaw_length]
    decide
  have h0 : (encodeRaw [[0, 1]] m).getD 0 0 = 0 := by
    rw [List.getD_eq_getElem _ _ hlen, encodeRaw_getElem [[0, 1]] m 0 hlen]
    have hk : kOf [[0, 1]] = 1 := rfl
    rw [hk, Finset.sum_range_one]
    simp
  rw [hm] at h0
  simp at h0

/-! ### Claim C8 (confirmed) -/

/-- C8: `encode` raises a length-mismatch error iff the message length
differs from `k`, and `syndrome` raises one iff the received length differs
from `n`; in the non-failing case both are pure functions returning vectors
of length `n` and `n − k` respectively. -/
theorem C8_length_checks (G : List (List Nat)) (v w : List Nat) :
    (encode G v = none ↔ v.length ≠ kOf G) ∧
    (syndrome G w = none ↔ w.length ≠ nOf G) ∧
    (∀ c, encode G v = some c → c.length = nOf G) ∧
    (∀ s, syndrome G w = some s → s.length = nOf G - kOf G) := by
  refine ⟨?_, ?_, ?_, ?_⟩
  · unfold encode
    split <;> simp_all
  · unfold syndrome
    split <;> simp_all
  · intro c hc
    unfold encode at hc
    split at hc
    · cases hc
    · cases hc
      exact encodeRaw_length G v
  · intro s hs
    unfold syndrome at hs
    split at hs
    · cases hs
    · cases hs
      unfold syndromeRaw
      rw [List.length_map]
      exact parity_check_length G

/-- Witness for C8 at the concrete code `G = [[1,0,1],[0,1,1]]`. -/
theorem C8_length_checks_witness :
    encode [[1, 0, 1], [0, 1, 1]] [1, 0, 0] = none ∧
    syndrome [[1, 0, 1], [0, 1, 1]] [1, 1] = none ∧
    encode [[1, 0, 1], [0, 1, 1]] [1, 0] = some [1, 0, 1] ∧
    syndrome [[1, 0, 1], [0, 1, 1]] [1, 0, 1] = some [0] := by
  have h := C8_length_checks [[1, 0, 1], [0, 1, 1]] [1, 0, 0] [1, 1]
  exact ⟨h.1.mpr (by decide), h.2.1.mpr (by decide), by decide, by decide⟩

/-! ### Facts about the graph embedding -/

theorem length_insertSorted (le : α → α → Bool) (x : α) (l : List α) :
    (insertSorted le x l).length = l.length + 1 := by
  induction l with
  | nil => rfl
  | cons y ys ih =>
    unfold insertSorted
    split
    · simp
    · simp [ih]

theorem length_sortBy (le : α → α → Bool) (l : List α) :
    (sortBy le l).length = l.length := by
  induction l with
  | nil => rfl
  | cons x xs ih =>
    unfold sortBy
    rw [length_insertSorted, ih, List.length_cons]

theorem mem_insertSorted (le : α → α → Bool) (x y : α) (l : List α) :
    y ∈ insertSorted le x l ↔ y = x ∨ y ∈ l := by
  induction l with
  | nil => simp [insertSorted]
  | cons z zs ih =>
    unfold insertSorted
    split
    · simp [List.mem_cons]
    · simp only [List.mem_cons, ih]
      tauto

theorem mem_sortBy (le : α → α → Bool) (y : α) (l : List α) :
    y ∈ sortBy le l ↔ y ∈ l := by
  induction l with
  | nil => simp [sortBy]
  | cons x xs ih =>
    unfold sortBy
    rw [mem_insertSorted, ih, List.mem_cons]

theorem foldl_preserve {α β : Type _} (P : α → Prop) (f : α → β → α) (l : List β)
    (hstep : ∀ a b, P a → P (f a b)) :
    ∀ init, P init → P (l.foldl f init) := by
  induction l with
  | nil => intro init h; exact h
  | cons x xs ih => intro init h; exact ih (f init x) (hstep init x h)

/-- Dimension invariant of a matrix. -/
def MatDims (nb nf : Nat) (M : List (List Int)) : Prop :=
  M.length = nb ∧ ∀ row ∈ M, row.length = nf

theorem setEntry_dims {nb nf : Nat} (M : List (List Int)) (i j : Nat) (v : Int)
    (h : MatDims nb nf M) : MatDims nb nf (setEntry M i j v) := by
  obtain ⟨hlen, hrows⟩ := h
  unfold setEntry
  rcases Nat.lt_or_ge i M.length with hi | hi
  · refine ⟨by simpa using hlen, ?_⟩
    intro row hrow
    rcases List.mem_or_eq_of_mem_set hrow with hmem | heq
    · exact hrows row hmem
    · subst heq
      rw [List.length_set, List.getD_eq_getElem _ _ hi]
      exact hrows _ (List.getElem_mem hi)
  · rw [List.set_eq_of_length_le hi]
    exact ⟨hlen, hrows⟩

theorem get_adjacency_matrix_dims (g : AdinkraGraph) (color : EdgeColor) :
    MatDims g.bosonic_nodes.length g.fermionic_nodes.length
      (get_adjacency_matrix g color) := by
  unfold get_adjacency_matrix
  apply foldl_preserve (MatDims g.bosonic_nodes.length g.fermionic_nodes.length)
  · intro M e hM
    dsimp only
    split
    · exact hM
    · split
      · exact setEntry_dims _ _ _ _ hM
      · exact hM
  · constructor
    · simp [sortedNodes, length_sortBy]
    · intro row hrow
      simp only [List.mem_map] at hrow
      obtain ⟨i, _, rfl⟩ := hrow
      simp [sortedNodes, length_sortBy]

theorem flatten_length_of_dims {nb nf : Nat} (M : List (List Int))
    (h : MatDims nb nf M) : M.flatten.length = nb * nf := by
  obtain ⟨hlen, hrows⟩ := h
  subst hlen
  induction M with
  | nil => simp
  | cons r rs ih =>
    simp only [List.flatten_cons, List.length_append, List.length_cons]
    rw [hrows r (List.mem_cons_self r rs), ih (fun row hrow => hrows row (List.mem_cons_of_mem r hrow))]
    ring

theorem structureBits_length (g : AdinkraGraph) (color : EdgeColor) :
    (structureBits g color).length = g.bosonic_nodes.length * g.fermionic_nodes.length := by
  unfold structureBits
  rw [List.length_map]
  exact flatten_length_of_dims _ (get_adjacency_matrix_dims g color)

theorem dashingBits_length (g : AdinkraGraph) (color : EdgeColor) (len : Nat) :
    (dashingBits g color len).length = len := by
  unfold dashingBits
  rw [List.length_take, List.length_append, List.length_replicate]
  omega

theorem to_codeword_row_length (g : AdinkraGraph) (color : EdgeColor) :
    (to_codeword_row g color).length
      = 2 * g.bosonic_nodes.length * g.fermionic_nodes.length := by
  unfold to_codeword_row
  rw [List.length_append, dashingBits_length, structureBits_length]
  ring

theorem lookup_map_pair {α β : Type _} [DecidableEq α] (l : List α) (f : α → β) (c : α)
    (hc : c ∈ l) : (l.map (fun x => (x, f x))).lookup c = some (f c) := by
  induction l with
  | nil => cases hc
  | cons x xs ih =>
    rcases List.mem_cons.mp hc with h | h
    · subst h
      simp [List.lookup]
    · by_cases hcx : c = x
      · subst hcx
        simp [List.lookup]
      · simp only [List.map_cons, List.lookup]
        have hbeq : (c == x) = false := by simpa using hcx
        rw [hbeq]
        exact ih h

theorem filterMap_eq_map_of_some {α β : Type _} (f : α → Option β) (gmap : α → β)
    (l : List α) (h : ∀ x ∈ l, f x = some (gmap x)) : l.filterMap f = l.map gmap := by
  induction l with
  | nil => rfl
  | cons x xs ih =>
    rw [List.filterMap_cons, h x (List.mem_cons_self x xs), List.map_cons,
      ih (fun y hy => h y (List.mem_cons_of_mem x hy))]

theorem foldl_max_all_eq {L : Nat} :
    ∀ (l : List Nat), l ≠ [] → (∀ x ∈ l, x = L) → ∀ a, l.foldl max a = max a L := by
  intro l
  induction l with
  | nil => intro h; cases h rfl
  | cons x xs ih =>
    intro _ hall a
    have hx : x = L := hall x (List.mem_cons_self x xs)
    subst hx
    rcases List.eq_nil_or_concat xs with hnil | _
    · subst hnil
      rfl
    · rw [List.foldl_cons, ih (by rintro rfl; simp_all)
        (fun y hy => hall y (List.mem_cons_of_mem x hy)) (max a x)]
      rw [max_assoc, max_self]

/-! ### Claim C9 (confirmed) -/

/-- Edge invariant: every stored edge joins differing field types. -/
def EdgesBipartite (g : AdinkraGraph) : Prop :=
  ∀ e ∈ g.edges, e.source.field_type ≠ e.target.field_type

theorem applyOp_bipartite {g g' : AdinkraGraph} {op : GraphOp}
    (h : applyOp g op = some g') (hg : EdgesBipartite g) : EdgesBipartite g' := by
  cases op with
  | addNodeOp node =>
    simp only [applyOp] at h
    cases h
    exact hg
  | addEdgeOp s t c d =>
    simp only [applyOp, mkAdinkraEdge] at h
    by_cases hst : s.field_type = t.field_type
    · rw [if_pos hst] at h
      cases h
    · rw [if_neg hst] at h
      simp only [add_edge] at h
      split at h
      · cases h
      · cases h
        intro e' he'
        have he2 : e' ∈ insertEdge g.edges ⟨s, t, c, d⟩ := he'
        unfold insertEdge at he2
        split at he2
        · exact hg e' he2
        · rcases List.mem_append.mp he2 with hmem | hnew
          · exact hg e' hmem
          · rw [List.mem_singleton] at hnew
            subst hnew
            exact hst

theorem buildGraph_aux_bipartite :
    ∀ (ops : List GraphOp) (g0 g : AdinkraGraph), EdgesBipartite g0 →
      ops.foldlM applyOp g0 = some g → EdgesBipartite g := by
  intro ops
  induction ops with
  | nil =>
    intro g0 g h0 hfold
    cases hfold
    exact h0
  | cons op ops ih =>
    intro g0 g h0 hfold
    rw [List.foldlM_cons] at hfold
    cases hop : applyOp g0 op with
    | none => rw [hop] at hfold; cases hfold
    | some g1 =>
      rw [hop] at hfold
      exact ih g1 g (applyOp_bipartite hop h0) hfold

/-- C9: constructing an `AdinkraEdge` whose endpoints share a field kind
fails at construction time; consequently every graph built only through
`add_node`/`add_edge` has only primary-to-conjugate edges and its
`check_adinkra_rules` result reports `bipartite = true`. -/
theorem C9_edge_invariant :
    (∀ (s t : AdinkraNode) (c : EdgeColor) (d : Bool),
      mkAdinkraEdge s t c d = none ↔ s.field_type = t.field_type) ∧
    (∀ (dim : Nat) (ops : List GraphOp) (g : AdinkraGraph), buildGraph dim ops = some g →
      (∀ e ∈ g.edges, e.source.field_type ≠ e.target.field_type) ∧
      (check_adinkra_rules g).bipartite = true) := by
  constructor
  · intro s t c d
    unfold mkAdinkraEdge
    split
    · simp_all
    · simp_all
  · intro dim ops g hbuild
    have hbip : EdgesBipartite g := by
      apply buildGraph_aux_bipartite ops (emptyGraph dim) g
      · intro e he
        cases he
      · exact hbuild
    refine ⟨hbip, ?_⟩
    unfold check_adinkra_rules
    simp only [List.all_eq_true]
    intro e he
    simpa using hbip e he

/-! ### Pair-distance machinery for the minimum-distance claims -/

theorem drop_range (m n : Nat) : (List.range n).drop m = List.range' m (n - m) := by
  rcases le_or_lt m n with h | h
  · have hsplit : List.range n = List.range' 0 m ++ List.range' m (n - m) := by
      rw [List.range_eq_range']
      have h1 : List.range' 0 m ++ List.range' (0 + m) (n - m) = List.range' 0 (n - m + m) :=
        List.range'_append_1 0 m (n - m)
      rw [Nat.zero_add] at h1
      have h2 : n - m + m = n := by omega
      rw [h2] at h1
      exact h1.symm
    have hlen : (List.range' 0 m).length = m := by simp
    calc (List.range n).drop m
        = (List.range' 0 m ++ List.range' m (n - m)).drop m := by rw [hsplit]
      _ = (List.range' 0 m ++ List.range' m (n - m)).drop (List.range' 0 m).length := by
          rw [hlen]
      _ = List.range' m (n - m) := List.drop_left _ _
  · rw [List.drop_eq_nil_of_le (by simpa using Nat.le_of_lt h)]
    have : n - m = 0 := by omega
    rw [this, List.range'_zero]

theorem mem_drop_range {j m n : Nat} : j ∈ (List.range n).drop m ↔ m ≤ j ∧ j < n := by
  rw [drop_range, List.mem_range']
  constructor
  · rintro ⟨i, hi, rfl⟩
    omega
  · intro ⟨h1, h2⟩
    exact ⟨j - m, by omega, by omega⟩

theorem compute_minimum_distance_eq_foldl (G : List (List Nat)) :
    compute_minimum_distance G = (pairDistList G).foldl min (nOf G + 1) := by
  unfold compute_minimum_distance pairDistList
  dsimp only
  rw [List.foldl_flatten, List.foldl_map]
  congr 1
  funext acc i
  rw [List.foldl_map]
  congr 1
  funext a j
  rcases Nat.lt_or_ge (hammingDist ((get_all_codewords G).getD i [])
    ((get_all_codewords G).getD j [])) a with h | h
  · rw [if_pos h, Nat.min_eq_right (Nat.le_of_lt h)]
  · rw [if_neg (by omega), Nat.min_eq_left h]

theorem mem_pairDistList {G : List (List Nat)} {x : Nat} :
    x ∈ pairDistList G ↔ ∃ i j, i < j ∧ j < (get_all_codewords G).length ∧
      hammingDist ((get_all_codewords G).getD i []) ((get_all_codewords G).getD j []) = x := by
  unfold pairDistList
  simp only [List.mem_flatten, List.mem_map]
  constructor
  · rintro ⟨l, ⟨i, hi, rfl⟩, hx⟩
    simp only [List.mem_map] at hx
    obtain ⟨j, hj, rfl⟩ := hx
    obtain ⟨hj1, hj2⟩ := mem_drop_range.mp hj
    exact ⟨i, j, by omega, hj2, rfl⟩
  · rintro ⟨i, j, hij, hj, rfl⟩
    refine ⟨_, ⟨i, List.mem_range.mpr (by omega), rfl⟩, ?_⟩
    simp only [List.mem_map]
    exact ⟨j, mem_drop_range.mpr ⟨by omega, hj⟩, rfl⟩

theorem get_all_codewords_length (G : List (List Nat)) :
    (get_all_codewords G).length = 2 ^ kOf G := by
  simp [get_all_codewords]

theorem get_all_codewords_getD (G : List (List Nat)) (i : Nat) (h : i < 2 ^ kOf G) :
    (get_all_codewords G).getD i [] = encodeRaw G (bitsOf (kOf G) i) := by
  unfold get_all_codewords
  rw [List.getD_eq_getElem _ _ (by simpa using h), List.getElem_map, List.getElem_range]

theorem hammingDist_self (c : List Nat) : hammingDist c c = 0 := by
  unfold hammingDist
  rw [List.zipWith_same]
  apply List.sum_eq_zero
  intro x hx
  simp only [List.mem_map] at hx
  obtain ⟨y, _, rfl⟩ := hx
  omega

theorem mod2v_of_binary {m : List Nat} (h : ∀ x ∈ m, x < 2) : mod2v m = m := by
  unfold mod2v
  conv_rhs => rw [← List.map_id m]
  apply List.map_congr_left
  intro x hx
  simp [Nat.mod_eq_of_lt (h x hx)]

/-! ### Claim C3 (corrected) -/

/-- C3 counterexample: for the accepted generator `G = [[1,0],[1,0]]`
(dependent rows) `get_all_codewords` returns `2^2 = 4` vectors that are not
pairwise distinct, refuting the claim's unconditional distinctness. -/
theorem C3_counterexample :
    (get_all_codewords [[1, 0], [1, 0]]).length = 2 ^ 2 ∧
    ¬ (get_all_codewords [[1, 0], [1, 0]]).Nodup := by
  decide

/-- C3 amended: `get_all_codewords` returns exactly `2^k` vectors, each of
length `n`, where entry `i` is the encoding of the `i`-th `k`-bit message in
counting order; the minimum of the pairwise Hamming distances equals the
reported minimum distance; and the vectors are pairwise distinct whenever
the rows of `G` are linearly independent over GF(2) (no nonzero binary
message encodes to the all-zero word) — but not unconditionally. -/
theorem C3_amended (G : List (List Nat)) (hk : 1 ≤ kOf G) :
    (get_all_codewords G).length = 2 ^ kOf G ∧
    (∀ c ∈ get_all_codewords G, c.length = nOf G) ∧
    (∀ i, i < 2 ^ kOf G →
      (get_all_codewords G).getD i [] = encodeRaw G (bitsOf (kOf G) i)) ∧
    (compute_minimum_distance G ∈ pairDistList G ∧
      ∀ x ∈ pairDistList G, compute_minimum_distance G ≤ x) ∧
    ((∀ m : List Nat, m.length = kOf G → (∀ b ∈ m, b < 2) →
        encodeRaw G m = List.replicate (nOf G) 0 → m = List.replicate (kOf G) 0) →
      (get_all_codewords G).Nodup) := by
  have hN : 2 ≤ 2 ^ kOf G := by
    calc 2 = 2 ^ 1 := rfl
    _ ≤ 2 ^ kOf G := Nat.pow_le_pow_right (by norm_num) hk
  refine ⟨get_all_codewords_length G, ?_, ?_, ⟨?_, ?_⟩, ?_⟩
  · intro c hc
    simp only [get_all_codewords, List.mem_map] at hc
    obtain ⟨i, _, rfl⟩ := hc
    exact encodeRaw_length G _
  · intro i hi
    exact get_all_codewords_getD G i hi
  · -- the computed minimum is attained by some pair
    rw [compute_minimum_distance_eq_foldl]
    rcases foldl_min_mem_or_init (pairDistList G) (nOf G + 1) with hinit | hmem
    · exfalso
      have hpair : hammingDist ((get_all_codewords G).getD 0 [])
          ((get_all_codewords G).getD 1 []) ∈ pairDistList G := by
        rw [mem_pairDistList]
        exact ⟨0, 1, by omega, by rw [get_all_codewords_length]; omega, rfl⟩
      have hle := foldl_min_le_mem _ hpair (nOf G + 1)
      have hbound : hammingDist ((get_all_codewords G).getD 0 [])
          ((get_all_codewords G).getD 1 []) ≤ nOf G := by
        have h0 := get_all_codewords_getD G 0 (by omega)
        have h1 := get_all_codewords_getD G 1 (by omega)
        rw [h0, h1]
        have := hammingDist_le (encodeRaw G (bitsOf (kOf G) 0)) (encodeRaw G (bitsOf (kOf G) 1))
        rw [encodeRaw_length, encodeRaw_length] at this
        omega
      omega
    · exact hmem
  · intro x hx
    rw [compute_minimum_distance_eq_foldl]
    exact foldl_min_le_mem _ hx _
  · -- distinctness under linear independence of the rows
    intro hindep
    unfold get_all_codewords
    apply List.Nodup.map_on ?_ (List.nodup_range _)
    intro i hi j hj heq
    by_contra hne
    have hi' : i < 2 ^ kOf G := List.mem_range.mp hi
    have hj' : j < 2 ^ kOf G := List.mem_range.mp hj
    have hab : bitsOf (kOf G) i ≠ bitsOf (kOf G) j := by
      intro hcontra
      exact hne (bitsOf_inj hi' hj' hcontra)
    have hdist : hammingDist (encodeRaw G (bitsOf (kOf G) i)) (encodeRaw G (bitsOf (kOf G) j))
        = (encodeRaw G (xorv (bitsOf (kOf G) i) (bitsOf (kOf G) j))).sum :=
      hammingDist_encodeRaw G _ _ (bitsOf_length _ _) (bitsOf_length _ _)
    rw [heq, hammingDist_self] at hdist
    have hzero : encodeRaw G (xorv (bitsOf (kOf G) i) (bitsOf (kOf G) j))
        = List.replicate (nOf G) 0 := by
      rw [List.eq_replicate_iff]
      refine ⟨encodeRaw_length _ _, ?_⟩
      intro b hb
      have := List.sum_eq_zero_iff.mp hdist.symm
      exact this b hb
    have hm := hindep (xorv (bitsOf (kOf G) i) (bitsOf (kOf G) j))
      (by rw [xorv_length, bitsOf_length, bitsOf_length]; omega)
      (by intro b hb
          simp only [xorv, List.mem_iff_getElem] at hb
          obtain ⟨t, ht, rfl⟩ := hb
          rw [List.getElem_zipWith]
          omega)
      hzero
    -- but the two bit vectors differ at some index
    apply hab
    apply List.ext_getElem (by rw [bitsOf_length, bitsOf_length])
    intro t ht1 ht2
    have htk : t < kOf G := by rwa [bitsOf_length] at ht1
    have hxt : (xorv (bitsOf (kOf G) i) (bitsOf (kOf G) j)).getD t 0 = 0 := by
      rw [hm]
      rcases Nat.lt_or_ge t (kOf G) with hl | hl
      · rw [List.getD_eq_getElem _ _ (by simpa using hl)]
        simp
      · rw [List.getD_eq_default _ _ (by simpa using hl)]
    rw [xorv_getD (by rwa [bitsOf_length]) (by rwa [bitsOf_length])] at hxt
    have hbi' : (bitsOf (kOf G) i).getD t 0 < 2 := by
      rw [List.getD_eq_getElem _ _ ht1]
      exact bitsOf_entry_lt (kOf G) i _ (List.getElem_mem ht1)
    have hbj' : (bitsOf (kOf G) j).getD t 0 < 2 := by
      rw [List.getD_eq_getElem _ _ ht2]
      exact bitsOf_entry_lt (kOf G) j _ (List.getElem_mem ht2)
    rw [← List.getD_eq_getElem _ 0 ht1, ← List.getD_eq_getElem _ 0 ht2]
    omega

/-- Witness for C3 at the identity generator `G = [[1,0],[0,1]]`. -/
theorem C3_amended_witness :
    (get_all_codewords [[1, 0], [0, 1]]).length = 4 ∧
    compute_minimum_distance [[1, 0], [0, 1]] ∈ pairDistList [[1, 0], [0, 1]] ∧
    (get_all_codewords [[1, 0], [0, 1]]).Nodup := by
  have h := C3_amended [[1, 0], [0, 1]] (by decide)
  refine ⟨h.1, h.2.2.2.1.1, h.2.2.2.2 ?_⟩
  intro m hm hb henc
  obtain ⟨a, b, rfl⟩ := List.length_eq_two.mp hm
  have ha : a < 2 := hb a (by simp)
  have hb2 : b < 2 := hb b (by simp)
  interval_cases a <;> interval_cases b <;> revert henc <;> decide

/-! ### Facts about the repetition and single-parity-check factories -/

theorem unitCol_entry_lt (r b : Nat) : ∀ x ∈ unitCol r b, x < 2 := by
  intro x hx
  simp only [unitCol, List.mem_map] at hx
  obtain ⟨t, _, rfl⟩ := hx
  split <;> omega

theorem unitCol_sum {r b : Nat} (hb : b < r) : (unitCol r b).sum = 1 := by
  unfold unitCol
  rw [list_sum_range]
  rw [Finset.sum_ite_eq' (Finset.range r) b (fun _ => 1)]
  rw [if_pos (Finset.mem_range.mpr hb)]

theorem sum_getD_range (m : List Nat) :
    (∑ i ∈ Finset.range m.length, m.getD i 0) = m.sum := by
  induction m with
  | nil => simp
  | cons x xs ih =>
    rw [List.length_cons, Finset.sum_range_succ']
    simp only [List.getD_cons_succ, List.getD_cons_zero, List.sum_cons]
    rw [ih]
    ring

theorem kOf_parityG (k : Nat) : kOf (parityG k) = k := by
  simp [parityG, kOf]

theorem nOf_parityG {k : Nat} (hk : 1 ≤ k) : nOf (parityG k) = k + 1 := by
  have h0 : (parityG k).getD 0 [] = (List.range (k + 1)).map
      (fun j => if j = 0 then 1 else if j = k then 1 else 0) := by
    unfold parityG
    rw [List.getD_eq_getElem _ _ (by simp only [List.length_map, List.length_range]; omega),
      List.getElem_map, List.getElem_range]
  have hh : (parityG k).headD [] = (parityG k).getD 0 [] := by
    cases hp : parityG k with
    | nil => rfl
    | cons a l => rfl
  unfold nOf
  rw [hh, h0, List.length_map, List.length_range]

theorem parityG_entry {k i j : Nat} (hi : i < k) (hj : j < k + 1) :
    ((parityG k).getD i []).getD j 0 = if j = i then 1 else if j = k then 1 else 0 := by
  have hrow : (parityG k).getD i []
      = (List.range (k + 1)).map (fun j' => if j' = i then 1 else if j' = k then 1 else 0) := by
    unfold parityG
    rw [List.getD_eq_getElem _ _ (by simp only [List.length_map, List.length_range]; omega),
      List.getElem_map, List.getElem_range]
  rw [hrow,
    List.getD_eq_getElem _ _ (by simp only [List.length_map, List.length_range]; omega),
    List.getElem_map, List.getElem_range]

theorem encodeRaw_parityG {k : Nat} (hk : 1 ≤ k) (m : List Nat) (hm : m.length = k) :
    encodeRaw (parityG k) m = mod2v m ++ [m.sum % 2] := by
  apply List.ext_getElem
  · rw [encodeRaw_length, nOf_parityG hk]
    simp [mod2v, hm]
  intro t ht1 ht2
  rw [encodeRaw_length, nOf_parityG hk] at ht1
  rw [encodeRaw_getElem _ _ t (by rw [encodeRaw_length, nOf_parityG hk]; exact ht1),
    kOf_parityG]
  rcases Nat.lt_or_ge t k with htk | htk
  · -- information component
    have hsum : (∑ i ∈ Finset.range k, m.getD i 0 % 2 * ((parityG k).getD i []).getD t 0)
        = m.getD t 0 % 2 := by
      have hcong : ∀ i ∈ Finset.range k,
          m.getD i 0 % 2 * ((parityG k).getD i []).getD t 0
            = if t = i then m.getD i 0 % 2 else 0 := by
        intro i hi
        rw [parityG_entry (Finset.mem_range.mp hi) (by omega)]
        rcases eq_or_ne t i with h | h
        · rw [if_pos h, if_pos h, Nat.mul_one]
        · rw [if_neg h, if_neg (by omega), Nat.mul_zero, if_neg h]
      rw [Finset.sum_congr rfl hcong, Finset.sum_ite_eq (Finset.range k) t _,
        if_pos (Finset.mem_range.mpr htk)]
    rw [hsum]
    have hrhs : (mod2v m ++ [m.sum % 2])[t] = m.getD t 0 % 2 := by
      rw [List.getElem_append_left (by simp [mod2v, hm]; exact htk)]
      simp only [mod2v, List.getElem_map]
      rw [List.getD_eq_getElem _ _ (by omega)]
    rw [hrhs, Nat.mod_mod_of_dvd _ (dvd_refl 2)]
  · -- parity component: t = k
    have hsum : (∑ i ∈ Finset.range k, m.getD i 0 % 2 * ((parityG k).getD i []).getD t 0)
        = ∑ i ∈ Finset.range k, m.getD i 0 % 2 := by
      apply Finset.sum_congr rfl
      intro i hi
      have hik : i < k := Finset.mem_range.mp hi
      rw [parityG_entry hik (by omega)]
      rw [if_neg (by omega), if_pos (by omega : t = k)]
      exact Nat.mul_one _
    rw [hsum]
    have hmod : (∑ i ∈ Finset.range k, m.getD i 0 % 2) % 2
        = (∑ i ∈ Finset.range k, m.getD i 0) % 2 := by
      rw [Finset.sum_nat_mod (Finset.range k) 2 (fun i => m.getD i 0)]
    rw [hmod, ← hm, sum_getD_range]
    have htkk : t = k := by omega
    have hrhs : (mod2v m ++ [m.sum % 2])[t] = m.sum % 2 := by
      rw [List.getElem_append_right (by simp [mod2v, hm]; omega)]
      simp [mod2v, hm, htkk]
    rw [hrhs]

theorem hammingDist_zero_left (c : List Nat) (h : ∀ x ∈ c, x < 2) :
    hammingDist (List.replicate c.length 0) c = c.sum := by
  induction c with
  | nil => rfl
  | cons x xs ih =>
    have hx := h x (List.mem_cons_self x xs)
    unfold hammingDist at *
    rw [List.length_cons, List.replicate_succ, List.zipWith_cons_cons, List.sum_cons,
      List.sum_cons, ih (fun y hy => h y (List.mem_cons_of_mem x hy))]
    have h0 : (0 + x) % 2 = x := by omega
    rw [h0]

theorem encodeRaw_zero_msg {G : List (List Nat)} {k : Nat} (_hk : kOf G = k) :
    encodeRaw G (List.replicate k 0) = List.replicate (nOf G) 0 := by
  rw [List.eq_replicate_iff]
  refine ⟨encodeRaw_length G _, ?_⟩
  intro b hb
  simp only [encodeRaw, List.mem_map] at hb
  obtain ⟨j, _, rfl⟩ := hb
  have hz : ∀ i ∈ List.range (kOf G),
      (mod2v (List.replicate k 0)).getD i 0 * (G.getD i []).getD j 0 = 0 := by
    intro i _
    rw [mod2v_getD]
    have h0 : (List.replicate k 0).getD i 0 = 0 := by
      rcases Nat.lt_or_ge i k with h | h
      · rw [List.getD_eq_getElem _ _ (by simpa using h), List.getElem_replicate]
      · rw [List.getD_eq_default _ _ (by simpa using h)]
    rw [h0]
    simp
  rw [List.map_congr_left hz]
  simp

theorem bitsOf_one {k : Nat} (hk : 1 ≤ k) : bitsOf k 1 = unitCol k (k - 1) := by
  have h := @bitsOf_two_pow k (k - 1) (by omega)
  have h1 : 2 ^ (k - 1 - (k - 1)) = 1 := by
    rw [Nat.sub_self, pow_zero]
  rw [h1] at h
  exact h

/-! ### Facts about the Hamming-code construction -/

theorem hammingHcol_eq_unitCol_iff {r b j : Nat} (hb : b < r) (hj : j < 2 ^ r - 1) :
    (hammingHcol r j == unitCol r b) = true ↔ j = 2 ^ (r - 1 - b) - 1 := by
  have hp1 : 1 ≤ 2 ^ r := Nat.pos_pow_of_pos _ (by norm_num)
  have hpb : 1 ≤ 2 ^ (r - 1 - b) := Nat.pos_pow_of_pos _ (by norm_num)
  have hpblt : 2 ^ (r - 1 - b) < 2 ^ r :=
    Nat.pow_lt_pow_right (by norm_num) (by omega)
  rw [beq_iff_eq]
  unfold hammingHcol
  constructor
  · intro h
    have hval := valBits_bitsOf r (j + 1) (by omega)
    rw [h, ← bitsOf_two_pow hb, valBits_bitsOf r _ hpblt] at hval
    omega
  · intro h
    subst h
    have h2 : 2 ^ (r - 1 - b) - 1 + 1 = 2 ^ (r - 1 - b) := by omega
    rw [h2]
    exact bitsOf_two_pow hb

theorem identityCols_eq (r : Nat) :
    identityCols r = (List.range r).map (fun b => 2 ^ (r - 1 - b) - 1) := by
  unfold identityCols
  apply filterMap_eq_map_of_some
  intro b hb
  have hbr : b < r := List.mem_range.mp hb
  have hpb : 1 ≤ 2 ^ (r - 1 - b) := Nat.pos_pow_of_pos _ (by norm_num)
  have hpblt : 2 ^ (r - 1 - b) < 2 ^ r :=
    Nat.pow_lt_pow_right (by norm_num) (by omega)
  apply find?_range_eq_some
  · omega
  · intro x hx
    have hxn : x < 2 ^ r - 1 := by omega
    rw [Bool.eq_false_iff]
    intro hcontra
    have := (hammingHcol_eq_unitCol_iff hbr hxn).mp hcontra
    omega
  · exact (hammingHcol_eq_unitCol_iff hbr (by omega)).mpr rfl

theorem identityCols_length (r : Nat) : (identityCols r).length = r := by
  rw [identityCols_eq, List.length_map, List.length_range]

theorem identityCols_getD {r b : Nat} (hb : b < r) :
    (identityCols r).getD b 0 = 2 ^ (r - 1 - b) - 1 := by
  rw [identityCols_eq,
    List.getD_eq_getElem _ _ (by simp only [List.length_map, List.length_range]; omega),
    List.getElem_map, List.getElem_range]

theorem identityCols_mem_iff {r j : Nat} :
    j ∈ identityCols r ↔ ∃ b, b < r ∧ j = 2 ^ (r - 1 - b) - 1 := by
  rw [identityCols_eq]
  simp only [List.mem_map, List.mem_range]
  constructor
  · rintro ⟨b, hb, rfl⟩
    exact ⟨b, hb, rfl⟩
  · rintro ⟨b, hb, rfl⟩
    exact ⟨b, hb, rfl⟩

theorem identityCols_nodup (r : Nat) : (identityCols r).Nodup := by
  rw [identityCols_eq]
  apply List.Nodup.map_on ?_ (List.nodup_range r)
  intro x hx y hy hxy
  have hxr : x < r := List.mem_range.mp hx
  have hyr : y < r := List.mem_range.mp hy
  have hp1 : 1 ≤ 2 ^ (r - 1 - x) := Nat.pos_pow_of_pos _ (by norm_num)
  have hp2 : 1 ≤ 2 ^ (r - 1 - y) := Nat.pos_pow_of_pos _ (by norm_num)
  have hpow : 2 ^ (r - 1 - x) = 2 ^ (r - 1 - y) := by omega
  have := Nat.pow_right_injective (le_refl 2) hpow
  omega

theorem identityCols_lt {r j : Nat} (hj : j ∈ identityCols r) : j < 2 ^ r - 1 := by
  rw [identityCols_mem_iff] at hj
  obtain ⟨b, hb, rfl⟩ := hj
  have hpb : 1 ≤ 2 ^ (r - 1 - b) := Nat.pos_pow_of_pos _ (by norm_num)
  have hpblt : 2 ^ (r - 1 - b) < 2 ^ r :=
    Nat.pow_lt_pow_right (by norm_num) (by omega)
  omega

theorem length_filter_not {α : Type _} (p : α → Bool) (l : List α) :
    (l.filter (fun a => !(p a))).length = l.length - (l.filter p).length := by
  induction l with
  | nil => rfl
  | cons x xs ih =>
    have hle : (xs.filter p).length ≤ xs.length := List.length_filter_le _ _
    cases hpx : p x with
    | false =>
      rw [List.filter_cons_of_pos (by simp [hpx]), List.filter_cons_of_neg (by simp [hpx]),
        List.length_cons, List.length_cons, ih]
      omega
    | true =>
      rw [List.filter_cons_of_neg (by simp [hpx]), List.filter_cons_of_pos (by simp [hpx]),
        List.length_cons, List.length_cons, ih]
      omega

theorem identityCols_filter_perm (r : Nat) :
    ((List.range (2 ^ r - 1)).filter
      (fun j => (identityCols r).contains j)).Perm (identityCols r) := by
  apply List.perm_of_nodup_nodup_toFinset_eq
  · exact (List.nodup_range _).filter _
  · exact identityCols_nodup r
  · apply Finset.ext
    intro x
    simp only [List.mem_toFinset, List.mem_filter, List.mem_range]
    constructor
    · rintro ⟨_, h2⟩
      simpa using h2
    · intro h
      exact ⟨identityCols_lt h, by simpa using h⟩

theorem infoPositions_length (r : Nat) :
    (infoPositions r).length = 2 ^ r - 1 - r := by
  unfold infoPositions
  rw [length_filter_not (fun j => (identityCols r).contains j) (List.range (2 ^ r - 1))]
  rw [List.length_range, (identityCols_filter_perm r).length_eq, identityCols_length]

theorem infoPositions_nodup (r : Nat) : (infoPositions r).Nodup :=
  (List.nodup_range _).filter _

theorem infoPositions_mem {r j : Nat} (hj : j ∈ infoPositions r) :
    j < 2 ^ r - 1 ∧ j ∉ identityCols r := by
  unfold infoPositions at hj
  rw [List.mem_filter, List.mem_range] at hj
  refine ⟨hj.1, ?_⟩
  have h2 := hj.2
  simp only [Bool.not_eq_true'] at h2
  intro hcontra
  rw [show (identityCols r).contains j = (identityCols r).elem j from rfl,
    List.elem_eq_mem, decide_eq_false_iff_not] at h2
  exact h2 hcontra

theorem infoPositions_getD_mem {r i : Nat} (hi : i < 2 ^ r - 1 - r) :
    (infoPositions r).getD i 0 ∈ infoPositions r := by
  rw [List.getD_eq_getElem _ _ (by rw [infoPositions_length]; exact hi)]
  exact List.getElem_mem _

theorem infoPositions_getD_inj {r i i' : Nat} (hi : i < 2 ^ r - 1 - r)
    (hi' : i' < 2 ^ r - 1 - r)
    (heq : (infoPositions r).getD i 0 = (infoPositions r).getD i' 0) : i = i' := by
  rw [List.getD_eq_getElem _ _ (by rw [infoPositions_length]; exact hi),
    List.getD_eq_getElem _ _ (by rw [infoPositions_length]; exact hi')] at heq
  exact (List.Nodup.getElem_inj_iff (infoPositions_nodup r)).mp heq

theorem two_pow_ge {r : Nat} (hr : 2 ≤ r) : r + 2 ≤ 2 ^ r := by
  induction r with
  | zero => omega
  | succ m ih =>
    rcases Nat.lt_or_ge m 2 with h | h
    · interval_cases m
      · omega
      · norm_num
    · have h1 := ih h
      have h2 : 1 ≤ 2 ^ m := Nat.pos_pow_of_pos _ (by norm_num)
      rw [pow_succ]
      omega

theorem indexOf?_getElem_nodup {α : Type _} [BEq α] [LawfulBEq α] :
    ∀ (l : List α), l.Nodup → ∀ t (ht : t < l.length), l.indexOf? (l[t]) = some t := by
  intro l
  induction l with
  | nil =>
    intro _ t ht
    simp at ht
  | cons x xs ih =>
    intro hnd t ht
    cases t with
    | zero =>
      rw [List.getElem_cons_zero, List.indexOf?_cons, if_pos (by simp)]
    | succ t' =>
      have ht' : t' < xs.length := by simpa using ht
      rw [List.getElem_cons_succ, List.indexOf?_cons]
      have hx : x ∉ xs := (List.nodup_cons.mp hnd).1
      rw [if_neg (by
        rw [beq_iff_eq]
        intro hcontra
        exact hx (hcontra ▸ List.getElem_mem ht'))]
      rw [ih (List.nodup_cons.mp hnd).2 t' ht']
      rfl

theorem indexOf?_of_not_mem {α : Type _} [BEq α] [LawfulBEq α] {l : List α} {x : α}
    (h : x ∉ l) : l.indexOf? x = none := by
  rw [List.indexOf?_eq_none_iff]
  intro y hy
  rw [beq_iff_eq]
  intro hcontra
  exact h (hcontra ▸ hy)

theorem kOf_hammingG (r : Nat) : kOf (hammingG r) = 2 ^ r - 1 - r := by
  simp [hammingG, kOf]

theorem hammingG_row {r i : Nat} (hi : i < 2 ^ r - 1 - r) :
    (hammingG r).getD i []
      = (List.range (2 ^ r - 1)).map (fun c =>
          if c = (infoPositions r).getD i 0 then 1
          else
            match (identityCols r).indexOf? c with
            | some t => hammingHent r t ((infoPositions r).getD i 0)
            | none => 0) := by
  unfold hammingG
  rw [List.getD_eq_getElem _ _ (by simp only [List.length_map, List.length_range]; omega),
    List.getElem_map, List.getElem_range]

theorem hammingG_entry {r i c : Nat} (hi : i < 2 ^ r - 1 - r) (hc : c < 2 ^ r - 1) :
    ((hammingG r).getD i []).getD c 0
      = if c = (infoPositions r).getD i 0 then 1
        else
          match (identityCols r).indexOf? c with
          | some t => hammingHent r t ((infoPositions r).getD i 0)
          | none => 0 := by
  rw [hammingG_row hi,
    List.getD_eq_getElem _ _ (by simp only [List.length_map, List.length_range]; omega),
    List.getElem_map, List.getElem_range]

theorem nOf_hammingG {r : Nat} (hr : 2 ≤ r) : nOf (hammingG r) = 2 ^ r - 1 := by
  have hk1 : 1 ≤ 2 ^ r - 1 - r := by
    have := two_pow_ge hr
    omega
  have hh : (hammingG r).headD [] = (hammingG r).getD 0 [] := by
    cases hp : hammingG r with
    | nil => rfl
    | cons a l => rfl
  unfold nOf
  rw [hh, hammingG_row (by omega), List.length_map, List.length_range]

theorem hammingHent_lt (r b j : Nat) : hammingHent r b j < 2 :=
  Nat.mod_lt _ (by norm_num)

theorem hammingHcol_getD {r b j : Nat} (hb : b < r) :
    (hammingHcol r j).getD b 0 = hammingHent r b j := by
  unfold hammingHcol bitsOf hammingHent
  rw [List.getD_eq_getElem _ _ (by simp only [List.length_map, List.length_range]; omega),
    List.getElem_map, List.getElem_range]

theorem hammingHent_identityCols {r b u : Nat} (hb : b < r) (hu : u < r) :
    hammingHent r b ((identityCols r).getD u 0) = if b = u then 1 else 0 := by
  have hcol : hammingHcol r ((identityCols r).getD u 0) = unitCol r u := by
    rw [identityCols_getD hu]
    unfold hammingHcol
    have hpu : 1 ≤ 2 ^ (r - 1 - u) := Nat.pos_pow_of_pos _ (by norm_num)
    have h1 : 2 ^ (r - 1 - u) - 1 + 1 = 2 ^ (r - 1 - u) := by omega
    rw [h1]
    exact bitsOf_two_pow hu
  rw [← hammingHcol_getD hb, hcol]
  unfold unitCol
  rw [List.getD_eq_getElem _ _ (by simp only [List.length_map, List.length_range]; omega),
    List.getElem_map, List.getElem_range]

theorem hammingG_entry_info {r t i : Nat} (ht : t < 2 ^ r - 1 - r)
    (hi : i < 2 ^ r - 1 - r) :
    ((hammingG r).getD i []).getD ((infoPositions r).getD t 0) 0
      = if t = i then 1 else 0 := by
  have hmem := infoPositions_getD_mem ht
  have hlt := (infoPositions_mem hmem).1
  have hnid := (infoPositions_mem hmem).2
  rw [hammingG_entry hi hlt]
  rcases eq_or_ne t i with heq | hne
  · subst heq
    rw [if_pos rfl, if_pos rfl]
  · rw [if_neg hne, if_neg (fun hcontra => hne (infoPositions_getD_inj ht hi hcontra))]
    rw [indexOf?_of_not_mem hnid]

theorem hammingG_entry_idCol {r u i : Nat} (hu : u < r) (hi : i < 2 ^ r - 1 - r) :
    ((hammingG r).getD i []).getD ((identityCols r).getD u 0) 0
      = hammingHent r u ((infoPositions r).getD i 0) := by
  have hmemid : (identityCols r).getD u 0 ∈ identityCols r := by
    rw [List.getD_eq_getElem _ _ (by rw [identityCols_length]; exact hu)]
    exact List.getElem_mem _
  have hlt := identityCols_lt hmemid
  have hip := infoPositions_getD_mem hi
  have hnid := (infoPositions_mem hip).2
  rw [hammingG_entry hi hlt]
  rw [if_neg (fun hcontra => hnid (by rw [← hcontra]; exact hmemid))]
  have hidx : (identityCols r).indexOf? ((identityCols r).getD u 0) = some u := by
    rw [List.getD_eq_getElem _ _ (by rw [identityCols_length]; exact hu)]
    exact indexOf?_getElem_nodup _ (identityCols_nodup r) u _
  rw [hidx]

theorem hammingG_entry_other {r c i : Nat} (hc : c < 2 ^ r - 1)
    (hi : i < 2 ^ r - 1 - r) (hcp : c ≠ (infoPositions r).getD i 0)
    (hcid : c ∉ identityCols r) :
    ((hammingG r).getD i []).getD c 0 = 0 := by
  rw [hammingG_entry hi hc, if_neg hcp, indexOf?_of_not_mem hcid]

theorem hammingG_entry_lt {r c i : Nat} (hc : c < 2 ^ r - 1) (hi : i < 2 ^ r - 1 - r) :
    ((hammingG r).getD i []).getD c 0 < 2 := by
  rw [hammingG_entry hi hc]
  split
  · omega
  · split
    · exact hammingHent_lt r _ _
    · omega

theorem encodeRaw_getD (G : List (List Nat)) (m : List Nat) (j : Nat) (hj : j < nOf G) :
    (encodeRaw G m).getD j 0
      = (∑ i ∈ Finset.range (kOf G), m.getD i 0 % 2 * (G.getD i []).getD j 0) % 2 := by
  rw [List.getD_eq_getElem _ _ (by rw [encodeRaw_length]; exact hj)]
  exact encodeRaw_getElem G m j (by rw [encodeRaw_length]; exact hj)

theorem encode_hamming_info {r t : Nat} (hr : 2 ≤ r) (m : List Nat)
    (ht : t < 2 ^ r - 1 - r) :
    (encodeRaw (hammingG r) m).getD ((infoPositions r).getD t 0) 0 = m.getD t 0 % 2 := by
  have hpt := infoPositions_getD_mem ht
  have hptn := (infoPositions_mem hpt).1
  rw [encodeRaw_getD _ _ _ (by rw [nOf_hammingG hr]; exact hptn), kOf_hammingG]
  have hcong : ∀ i ∈ Finset.range (2 ^ r - 1 - r),
      m.getD i 0 % 2 * ((hammingG r).getD i []).getD ((infoPositions r).getD t 0) 0
        = if t = i then m.getD i 0 % 2 else 0 := by
    intro i hi
    rw [hammingG_entry_info ht (Finset.mem_range.mp hi)]
    rcases eq_or_ne t i with h | h
    · rw [if_pos h, if_pos h, Nat.mul_one]
    · rw [if_neg h, if_neg h, Nat.mul_zero]
  rw [Finset.sum_congr rfl hcong, Finset.sum_ite_eq (Finset.range (2 ^ r - 1 - r)) t _,
    if_pos (Finset.mem_range.mpr ht), Nat.mod_mod_of_dvd _ (dvd_refl 2)]

theorem valBits_zero (bs : List Nat) (h : ∀ x ∈ bs, x = 0) : valBits bs = 0 := by
  induction bs with
  | nil => rfl
  | cons b bs ih =>
    rw [valBits_cons, h b (List.mem_cons_self b bs),
      ih (fun x hx => h x (List.mem_cons_of_mem b hx))]
    simp

theorem identityCols_image_eq {r : Nat} :
    ∀ j, j ∈ identityCols r ↔
      j ∈ (Finset.range r).image (fun u => (identityCols r).getD u 0) := by
  intro j
  rw [Finset.mem_image]
  constructor
  · intro hj
    obtain ⟨u, hu, hju⟩ := List.mem_iff_getElem.mp hj
    rw [identityCols_length] at hu
    refine ⟨u, Finset.mem_range.mpr hu, ?_⟩
    rw [List.getD_eq_getElem _ _ (by rw [identityCols_length]; exact hu)]
    exact hju
  · rintro ⟨u, hu, rfl⟩
    rw [List.getD_eq_getElem _ _ (by rw [identityCols_length]; exact Finset.mem_range.mp hu)]
    exact List.getElem_mem _

theorem hamming_row_orthogonal {r b i : Nat} (_hr : 2 ≤ r) (hb : b < r)
    (hi : i < 2 ^ r - 1 - r) :
    (∑ j ∈ Finset.range (2 ^ r - 1),
      hammingHent r b j * ((hammingG r).getD i []).getD j 0) % 2 = 0 := by
  set p := (infoPositions r).getD i 0 with hpdef
  have hpmem := infoPositions_getD_mem hi
  have hpn := (infoPositions_mem hpmem).1
  have hpnid := (infoPositions_mem hpmem).2
  set S : Finset Nat :=
    insert p ((Finset.range r).image (fun u => (identityCols r).getD u 0)) with hSdef
  have hsub : S ⊆ Finset.range (2 ^ r - 1) := by
    intro x hx
    rw [hSdef, Finset.mem_insert] at hx
    rcases hx with rfl | hx
    · exact Finset.mem_range.mpr hpn
    · rw [← identityCols_image_eq] at hx
      exact Finset.mem_range.mpr (identityCols_lt hx)
  have hzero : ∀ x ∈ Finset.range (2 ^ r - 1), x ∉ S →
      hammingHent r b x * ((hammingG r).getD i []).getD x 0 = 0 := by
    intro x hx hxS
    rw [hSdef, Finset.mem_insert] at hxS
    push_neg at hxS
    rw [hammingG_entry_other (Finset.mem_range.mp hx) hi hxS.1
      (fun hc => hxS.2 ((identityCols_image_eq x).mp hc)), Nat.mul_zero]
  rw [← Finset.sum_subset hsub hzero]
  have hpnotim : p ∉ (Finset.range r).image (fun u => (identityCols r).getD u 0) := by
    intro hc
    exact hpnid ((identityCols_image_eq p).mpr hc)
  rw [hSdef, Finset.sum_insert hpnotim]
  have hinj : Set.InjOn (fun u => (identityCols r).getD u 0) (Finset.range r) := by
    intro x hx y hy hxy
    have hxr : x < r := Finset.mem_range.mp hx
    have hyr : y < r := Finset.mem_range.mp hy
    have hxy' : (identityCols r).getD x 0 = (identityCols r).getD y 0 := hxy
    rw [List.getD_eq_getElem _ _ (by rw [identityCols_length]; exact hxr),
      List.getD_eq_getElem _ _ (by rw [identityCols_length]; exact hyr)] at hxy'
    exact (List.Nodup.getElem_inj_iff (identityCols_nodup r)).mp hxy'
  rw [Finset.sum_image hinj]
  have hterm1 : hammingHent r b p * ((hammingG r).getD i []).getD p 0
      = hammingHent r b p := by
    rw [hpdef, hammingG_entry_info hi hi, if_pos rfl, Nat.mul_one]
  have hterm2 : ∀ u ∈ Finset.range r,
      hammingHent r b ((identityCols r).getD u 0)
          * ((hammingG r).getD i []).getD ((identityCols r).getD u 0) 0
        = if b = u then hammingHent r u p else 0 := by
    intro u hu
    have hur : u < r := Finset.mem_range.mp hu
    rw [hammingHent_identityCols hb hur, hammingG_entry_idCol hur hi]
    rcases eq_or_ne b u with h | h
    · rw [if_pos h, if_pos h, Nat.one_mul]
    · rw [if_neg h, if_neg h, Nat.zero_mul]
  rw [hterm1, Finset.sum_congr rfl hterm2,
    Finset.sum_ite_eq (Finset.range r) b _, if_pos (Finset.mem_range.mpr hb)]
  omega

theorem hamming_orthogonal {r b : Nat} (hr : 2 ≤ r) (hb : b < r) (m : List Nat) :
    (∑ j ∈ Finset.range (2 ^ r - 1),
      hammingHent r b j * (encodeRaw (hammingG r) m).getD j 0) % 2 = 0 := by
  have hstep1 : (∑ j ∈ Finset.range (2 ^ r - 1),
      hammingHent r b j * (encodeRaw (hammingG r) m).getD j 0) % 2
      = (∑ j ∈ Finset.range (2 ^ r - 1), hammingHent r b j *
          (∑ i ∈ Finset.range (kOf (hammingG r)),
            m.getD i 0 % 2 * ((hammingG r).getD i []).getD j 0)) % 2 := by
    rw [Finset.sum_nat_mod, Finset.sum_nat_mod (Finset.range (2 ^ r - 1)) 2
      (fun j => hammingHent r b j * _)]
    congr 1
    apply Finset.sum_congr rfl
    intro j hj
    rw [encodeRaw_getD _ _ _ (by rw [nOf_hammingG hr]; exact Finset.mem_range.mp hj)]
    conv_lhs => rw [Nat.mul_mod]
    conv_rhs => rw [Nat.mul_mod]
    rw [Nat.mod_mod_of_dvd _ (dvd_refl 2)]
  rw [hstep1]
  have hswap : (∑ j ∈ Finset.range (2 ^ r - 1), hammingHent r b j *
      (∑ i ∈ Finset.range (kOf (hammingG r)),
        m.getD i 0 % 2 * ((hammingG r).getD i []).getD j 0))
      = ∑ i ∈ Finset.range (kOf (hammingG r)), m.getD i 0 % 2 *
          (∑ j ∈ Finset.range (2 ^ r - 1),
            hammingHent r b j * ((hammingG r).getD i []).getD j 0) := by
    simp only [Finset.mul_sum]
    rw [Finset.sum_comm]
    apply Finset.sum_congr rfl
    intro i _
    apply Finset.sum_congr rfl
    intro j _
    ring
  rw [hswap, Finset.sum_nat_mod]
  have hz : ∀ i ∈ Finset.range (kOf (hammingG r)),
      (m.getD i 0 % 2 * (∑ j ∈ Finset.range (2 ^ r - 1),
        hammingHent r b j * ((hammingG r).getD i []).getD j 0)) % 2 = 0 := by
    intro i hi
    have hrow := hamming_row_orthogonal hr hb
      (by rw [kOf_hammingG] at hi; exact Finset.mem_range.mp hi)
    rw [Nat.mul_mod, hrow, Nat.mul_zero, Nat.zero_mod]
  rw [Finset.sum_congr rfl hz]
  simp

theorem hamming_weight_ge_three {r : Nat} (hr : 2 ≤ r) (m : List Nat)
    (hnz : ∃ t, t < 2 ^ r - 1 - r ∧ m.getD t 0 % 2 = 1) :
    3 ≤ (encodeRaw (hammingG r) m).sum := by
  have hp1 : 1 ≤ 2 ^ r := Nat.pos_pow_of_pos _ (by norm_num)
  set c := encodeRaw (hammingG r) m with hcdef
  have hclen : c.length = 2 ^ r - 1 := by
    rw [hcdef, encodeRaw_length, nOf_hammingG hr]
  have hW : (∑ j ∈ Finset.range (2 ^ r - 1), c.getD j 0) = c.sum := by
    rw [← hclen]
    exact sum_getD_range c
  have hClt : ∀ j, c.getD j 0 < 2 := by
    intro j
    rcases Nat.lt_or_ge j c.length with h | h
    · rw [List.getD_eq_getElem _ _ h]
      exact encodeRaw_entry_lt _ _ _ (List.getElem_mem h)
    · rw [List.getD_eq_default _ _ h]
      omega
  obtain ⟨t, ht, hmt⟩ := hnz
  set j₁ := (infoPositions r).getD t 0 with hj1def
  have hj1n : j₁ < 2 ^ r - 1 := (infoPositions_mem (infoPositions_getD_mem ht)).1
  have hj1mem : j₁ ∈ Finset.range (2 ^ r - 1) := Finset.mem_range.mpr hj1n
  have hCj1 : c.getD j₁ 0 = 1 := by
    rw [hcdef, hj1def, encode_hamming_info hr m ht, hmt]
  by_contra hcon
  push_neg at hcon
  have hsplit := Finset.add_sum_erase (Finset.range (2 ^ r - 1))
    (fun j => c.getD j 0) hj1mem
  dsimp only at hsplit
  have hE : (∑ j ∈ (Finset.range (2 ^ r - 1)).erase j₁, c.getD j 0) ≤ 1 := by
    omega
  have horthc : ∀ b, b < r →
      (∑ j ∈ Finset.range (2 ^ r - 1), hammingHent r b j * c.getD j 0) % 2 = 0 := by
    intro b hb
    rw [hcdef]
    exact hamming_orthogonal hr hb m
  have hsplitH : ∀ b, (∑ j ∈ Finset.range (2 ^ r - 1), hammingHent r b j * c.getD j 0)
      = hammingHent r b j₁ * c.getD j₁ 0
        + ∑ j ∈ (Finset.range (2 ^ r - 1)).erase j₁, hammingHent r b j * c.getD j 0 := by
    intro b
    exact (Finset.add_sum_erase (Finset.range (2 ^ r - 1))
      (fun j => hammingHent r b j * c.getD j 0) hj1mem).symm
  have hcases : (∑ j ∈ (Finset.range (2 ^ r - 1)).erase j₁, c.getD j 0) = 0 ∨
      (∑ j ∈ (Finset.range (2 ^ r - 1)).erase j₁, c.getD j 0) = 1 := by
    omega
  rcases hcases with hE0 | hE1
  · -- codeword of weight 1: column j₁ of H would be zero
    have hallz := Finset.sum_eq_zero_iff.mp hE0
    have hcols : ∀ b, b < r → hammingHent r b j₁ = 0 := by
      intro b hb
      have h1 := horthc b hb
      rw [hsplitH b, hCj1, Nat.mul_one,
        Finset.sum_eq_zero (fun j hj => by rw [hallz j hj, Nat.mul_zero]),
        Nat.add_zero] at h1
      have := hammingHent_lt r b j₁
      omega
    have hval := valBits_bitsOf r (j₁ + 1) (by omega)
    have hzero : valBits (bitsOf r (j₁ + 1)) = 0 := by
      apply valBits_zero
      intro x hx
      simp only [bitsOf, List.mem_map, List.mem_range] at hx
      obtain ⟨bb, hbb, rfl⟩ := hx
      exact hcols bb hbb
    omega
  · -- codeword of weight 2: columns j₁ and j₂ of H would coincide
    have hex : ∃ j₂ ∈ (Finset.range (2 ^ r - 1)).erase j₁, c.getD j₂ 0 ≠ 0 := by
      by_contra hc
      push_neg at hc
      rw [Finset.sum_eq_zero hc] at hE1
      omega
    obtain ⟨j₂, hj2mem, hj2ne⟩ := hex
    have hCj2 : c.getD j₂ 0 = 1 := by
      have := hClt j₂
      omega
    have hj2props := Finset.mem_erase.mp hj2mem
    have hj2n : j₂ < 2 ^ r - 1 := Finset.mem_range.mp hj2props.2
    have hsplit2 := Finset.add_sum_erase ((Finset.range (2 ^ r - 1)).erase j₁)
      (fun j => c.getD j 0) hj2mem
    dsimp only at hsplit2
    have hrest : ∀ j ∈ ((Finset.range (2 ^ r - 1)).erase j₁).erase j₂, c.getD j 0 = 0 := by
      apply Finset.sum_eq_zero_iff.mp
      omega
    have hcols : ∀ b, b < r → hammingHent r b j₁ = hammingHent r b j₂ := by
      intro b hb
      have h1 := horthc b hb
      have hsplitH2 : (∑ j ∈ (Finset.range (2 ^ r - 1)).erase j₁,
          hammingHent r b j * c.getD j 0)
          = hammingHent r b j₂ * c.getD j₂ 0
            + ∑ j ∈ ((Finset.range (2 ^ r - 1)).erase j₁).erase j₂,
                hammingHent r b j * c.getD j 0 :=
        (Finset.add_sum_erase ((Finset.range (2 ^ r - 1)).erase j₁)
          (fun j => hammingHent r b j * c.getD j 0) hj2mem).symm
      rw [hsplitH b, hsplitH2, hCj1, hCj2, Nat.mul_one, Nat.mul_one,
        Finset.sum_eq_zero (fun j hj => by rw [hrest j hj, Nat.mul_zero]),
        Nat.add_zero] at h1
      have hb1 := hammingHent_lt r b j₁
      have hb2 := hammingHent_lt r b j₂
      omega
    have hbits : bitsOf r (j₁ + 1) = bitsOf r (j₂ + 1) := by
      apply List.ext_getElem (by rw [bitsOf_length, bitsOf_length])
      intro b hb1 hb2
      have hbr : b < r := by rwa [bitsOf_length] at hb1
      rw [bitsOf_getElem r (j₁ + 1) b hb1, bitsOf_getElem r (j₂ + 1) b hb2]
      exact hcols b hbr
    have := @bitsOf_inj r (j₁ + 1) (j₂ + 1) (by omega) (by omega) hbits
    exact hj2props.1 (by omega)

theorem contains_eq_decide_mem {α : Type _} [BEq α] [LawfulBEq α] (l : List α) (x : α) :
    l.contains x = decide (x ∈ l) := by
  rw [show l.contains x = l.elem x from rfl, List.elem_eq_mem]

theorem zero_mem_identityCols {r : Nat} (hr : 1 ≤ r) : 0 ∈ identityCols r := by
  rw [identityCols_mem_iff]
  refine ⟨r - 1, by omega, ?_⟩
  rw [Nat.sub_self]
  norm_num

theorem one_mem_identityCols {r : Nat} (hr : 2 ≤ r) : 1 ∈ identityCols r := by
  rw [identityCols_mem_iff]
  refine ⟨r - 2, by omega, ?_⟩
  have h : r - 1 - (r - 2) = 1 := by omega
  rw [h]
  norm_num

theorem two_not_mem_identityCols {r : Nat} : 2 ∉ identityCols r := by
  rw [identityCols_mem_iff]
  rintro ⟨b, hb, heq⟩
  have hpe : 1 ≤ 2 ^ (r - 1 - b) := Nat.pos_pow_of_pos _ (by norm_num)
  have h3 : 2 ^ (r - 1 - b) = 3 := by omega
  rcases Nat.eq_zero_or_pos (r - 1 - b) with he | he
  · rw [he] at h3
    norm_num at h3
  · have h2 : 2 ^ (r - 1 - b) = 2 * 2 ^ (r - 1 - b - 1) := by
      rw [← pow_succ']
      congr 1
      omega
    omega

theorem infoPositions_getD_zero {r : Nat} (hr : 2 ≤ r) :
    (infoPositions r).getD 0 0 = 2 := by
  have hn3 : 3 ≤ 2 ^ r - 1 := by
    have := two_pow_ge hr
    omega
  unfold infoPositions
  have hsplit : List.range (2 ^ r - 1)
      = [0, 1, 2] ++ (List.range (2 ^ r - 1 - 3)).map (3 + ·) := by
    have h : 2 ^ r - 1 = 3 + (2 ^ r - 1 - 3) := by omega
    conv_lhs => rw [h]
    rw [List.range_add]
    congr 1
  rw [hsplit, List.filter_append]
  have h0 : ((identityCols r).contains 0) = true := by
    rw [contains_eq_decide_mem, decide_eq_true_eq]
    exact zero_mem_identityCols (by omega)
  have h1 : ((identityCols r).contains 1) = true := by
    rw [contains_eq_decide_mem, decide_eq_true_eq]
    exact one_mem_identityCols hr
  have h2 : ((identityCols r).contains 2) = false := by
    rw [contains_eq_decide_mem]
    rw [decide_eq_false_iff_not]
    exact two_not_mem_identityCols
  have hfilter : List.filter (fun j => !(identityCols r).contains j) [0, 1, 2] = [2] := by
    rw [List.filter_cons_of_neg (by rw [h0]; simp),
      List.filter_cons_of_neg (by rw [h1]; simp),
      List.filter_cons_of_pos (by rw [h2]; simp)]
    rfl
  rw [hfilter, List.singleton_append, List.getD_cons_zero]

theorem unitCol_getD {r b i : Nat} (_hb : b < r) (hi : i < r) :
    (unitCol r b).getD i 0 = if i = b then 1 else 0 := by
  unfold unitCol
  rw [List.getD_eq_getElem _ _ (by simp only [List.length_map, List.length_range]; omega),
    List.getElem_map, List.getElem_range]

theorem encode_unitCol_component {r j : Nat} (hr : 2 ≤ r) (hj : j < 2 ^ r - 1) :
    (encodeRaw (hammingG r) (unitCol (2 ^ r - 1 - r) 0)).getD j 0
      = ((hammingG r).getD 0 []).getD j 0 := by
  have hk1 : 1 ≤ 2 ^ r - 1 - r := by
    have := two_pow_ge hr
    omega
  rw [encodeRaw_getD _ _ _ (by rw [nOf_hammingG hr]; exact hj), kOf_hammingG]
  have hcong : ∀ i ∈ Finset.range (2 ^ r - 1 - r),
      (unitCol (2 ^ r - 1 - r) 0).getD i 0 % 2 * ((hammingG r).getD i []).getD j 0
        = if i = 0 then ((hammingG r).getD i []).getD j 0 else 0 := by
    intro i hi
    rw [unitCol_getD (by omega) (Finset.mem_range.mp hi)]
    rcases eq_or_ne i 0 with h | h
    · rw [if_pos h, if_pos h]
      norm_num
    · rw [if_neg h, if_neg h]
      norm_num
  rw [Finset.sum_congr rfl hcong,
    Finset.sum_ite_eq' (Finset.range (2 ^ r - 1 - r)) 0
      (fun i => ((hammingG r).getD i []).getD j 0),
    if_pos (Finset.mem_range.mpr (by omega))]
  exact Nat.mod_eq_of_lt (hammingG_entry_lt hj (by omega))

theorem sum_entries_row {r i : Nat} (_hr : 2 ≤ r) (hi : i < 2 ^ r - 1 - r) :
    (∑ j ∈ Finset.range (2 ^ r - 1), ((hammingG r).getD i []).getD j 0)
      = 1 + ∑ u ∈ Finset.range r, hammingHent r u ((infoPositions r).getD i 0) := by
  set p := (infoPositions r).getD i 0 with hpdef
  have hpmem := infoPositions_getD_mem hi
  have hpn := (infoPositions_mem hpmem).1
  have hpnid := (infoPositions_mem hpmem).2
  set S : Finset Nat :=
    insert p ((Finset.range r).image (fun u => (identityCols r).getD u 0)) with hSdef
  have hsub : S ⊆ Finset.range (2 ^ r - 1) := by
    intro x hx
    rw [hSdef, Finset.mem_insert] at hx
    rcases hx with rfl | hx
    · exact Finset.mem_range.mpr hpn
    · rw [← identityCols_image_eq] at hx
      exact Finset.mem_range.mpr (identityCols_lt hx)
  have hzero : ∀ x ∈ Finset.range (2 ^ r - 1), x ∉ S →
      ((hammingG r).getD i []).getD x 0 = 0 := by
    intro x hx hxS
    rw [hSdef, Finset.mem_insert] at hxS
    push_neg at hxS
    exact hammingG_entry_other (Finset.mem_range.mp hx) hi hxS.1
      (fun hc => hxS.2 ((identityCols_image_eq x).mp hc))
  rw [← Finset.sum_subset hsub hzero]
  have hpnotim : p ∉ (Finset.range r).image (fun u => (identityCols r).getD u 0) := by
    intro hc
    exact hpnid ((identityCols_image_eq p).mpr hc)
  rw [hSdef, Finset.sum_insert hpnotim]
  have hinj : Set.InjOn (fun u => (identityCols r).getD u 0) (Finset.range r) := by
    intro x hx y hy hxy
    have hxr : x < r := Finset.mem_range.mp hx
    have hyr : y < r := Finset.mem_range.mp hy
    have hxy' : (identityCols r).getD x 0 = (identityCols r).getD y 0 := hxy
    rw [List.getD_eq_getElem _ _ (by rw [identityCols_length]; exact hxr),
      List.getD_eq_getElem _ _ (by rw [identityCols_length]; exact hyr)] at hxy'
    exact (List.Nodup.getElem_inj_iff (identityCols_nodup r)).mp hxy'
  rw [Finset.sum_image hinj]
  have hterm1 : ((hammingG r).getD i []).getD p 0 = 1 := by
    rw [hpdef, hammingG_entry_info hi hi, if_pos rfl]
  have hterm2 : ∀ u ∈ Finset.range r,
      ((hammingG r).getD i []).getD ((identityCols r).getD u 0) 0
        = hammingHent r u p := by
    intro u hu
    exact hammingG_entry_idCol (Finset.mem_range.mp hu) hi
  rw [hterm1, Finset.sum_congr rfl hterm2]

theorem hammingHent_col2 {r u : Nat} (hr : 2 ≤ r) (hu : u < r) :
    hammingHent r u 2 = if u = r - 1 then 1 else if u = r - 2 then 1 else 0 := by
  unfold hammingHent
  rcases eq_or_ne u (r - 1) with h1 | h1
  · subst h1
    rw [if_pos rfl, Nat.sub_self]
    norm_num
  · rcases eq_or_ne u (r - 2) with h2 | h2
    · subst h2
      rw [if_neg h1, if_pos rfl]
      have h : r - 1 - (r - 2) = 1 := by omega
      rw [h]
      norm_num
    · rw [if_neg h1, if_neg h2]
      have he : 2 ≤ r - 1 - u := by omega
      have hlt : (2 + 1 : Nat) < 2 ^ (r - 1 - u) := by
        calc (3 : Nat) < 4 := by norm_num
        _ = 2 ^ 2 := by norm_num
        _ ≤ 2 ^ (r - 1 - u) := Nat.pow_le_pow_right (by norm_num) he
      rw [Nat.div_eq_of_lt hlt]

theorem sum_hammingHent_col2 {r : Nat} (hr : 2 ≤ r) :
    (∑ u ∈ Finset.range r, hammingHent r u 2) = 2 := by
  have hcong : ∀ u ∈ Finset.range r, hammingHent r u 2
      = (if u = r - 1 then 1 else 0) + (if u = r - 2 then 1 else 0) := by
    intro u hu
    rw [hammingHent_col2 hr (Finset.mem_range.mp hu)]
    split_ifs <;> omega
  rw [Finset.sum_congr rfl hcong, Finset.sum_add_distrib,
    Finset.sum_ite_eq' (Finset.range r) (r - 1) (fun _ => 1),
    Finset.sum_ite_eq' (Finset.range r) (r - 2) (fun _ => 1),
    if_pos (Finset.mem_range.mpr (by omega)), if_pos (Finset.mem_range.mpr (by omega))]

theorem encode_unitCol_sum {r : Nat} (hr : 2 ≤ r) :
    (encodeRaw (hammingG r) (unitCol (2 ^ r - 1 - r) 0)).sum = 3 := by
  have hk1 : 1 ≤ 2 ^ r - 1 - r := by
    have := two_pow_ge hr
    omega
  have hclen : (encodeRaw (hammingG r) (unitCol (2 ^ r - 1 - r) 0)).length = 2 ^ r - 1 := by
    rw [encodeRaw_length, nOf_hammingG hr]
  rw [← sum_getD_range, hclen]
  have hcomp : ∀ j ∈ Finset.range (2 ^ r - 1),
      (encodeRaw (hammingG r) (unitCol (2 ^ r - 1 - r) 0)).getD j 0
        = ((hammingG r).getD 0 []).getD j 0 := by
    intro j hj
    exact encode_unitCol_component hr (Finset.mem_range.mp hj)
  rw [Finset.sum_congr rfl hcomp, sum_entries_row hr (by omega),
    infoPositions_getD_zero hr, sum_hammingHent_col2 hr]

theorem xorv_zero_left (u : List Nat) (hu : ∀ x ∈ u, x < 2) :
    xorv (List.replicate u.length 0) u = u := by
  apply List.ext_getElem
  · rw [xorv_length, List.length_replicate]
    omega
  intro t ht1 ht2
  unfold xorv
  rw [List.getElem_zipWith, List.getElem_replicate]
  have := hu (u[t]) (List.getElem_mem ht2)
  omega

/-! ### Claim C4 (confirmed) -/

/-- C4: for every `r ≥ 2`, `hamming_code r` builds the
`(2^r − 1, 2^r − r − 1, 3)` Hamming code; in particular `Hamming(3)` yields
`(n, k, d) = (7, 4, 3)` and `encode([1,0,1,1])` produces a 7-bit word whose
syndrome is the zero vector; for `r < 2` the constructor raises an
invalid-parameter error. -/
theorem C4_hamming :
    (∀ r, 2 ≤ r → hamming_code r = some (hammingG r) ∧
      kOf (hammingG r) = 2 ^ r - r - 1 ∧ nOf (hammingG r) = 2 ^ r - 1 ∧
      compute_minimum_distance (hammingG r) = 3) ∧
    (kOf (hammingG 3) = 4 ∧ nOf (hammingG 3) = 7 ∧
      compute_minimum_distance (hammingG 3) = 3) ∧
    encode (hammingG 3) [1, 0, 1, 1] = some [0, 1, 1, 0, 0, 1, 1] ∧
    syndrome (hammingG 3) [0, 1, 1, 0, 0, 1, 1] = some [0, 0, 0] ∧
    is_codeword (hammingG 3) [0, 1, 1, 0, 0, 1, 1] = some true ∧
    hamming_code 1 = none ∧ hamming_code 0 = none := by
  have hgen : ∀ r, 2 ≤ r → hamming_code r = some (hammingG r) ∧
      kOf (hammingG r) = 2 ^ r - r - 1 ∧ nOf (hammingG r) = 2 ^ r - 1 ∧
      compute_minimum_distance (hammingG r) = 3 := by
    intro r hr
    have hk1 : 1 ≤ 2 ^ r - 1 - r := by
      have := two_pow_ge hr
      omega
    have hkof : kOf (hammingG r) = 2 ^ r - 1 - r := kOf_hammingG r
    have hcode : hamming_code r = some (hammingG r) := by
      unfold hamming_code
      rw [if_neg (by omega)]
    refine ⟨hcode, by rw [hkof]; omega, nOf_hammingG hr, ?_⟩
    -- the minimum distance is 3
    rw [compute_minimum_distance_eq_foldl]
    have hp1 : 1 ≤ 2 ^ r := Nat.pos_pow_of_pos _ (by norm_num)
    have hlow : ∀ x ∈ pairDistList (hammingG r), 3 ≤ x := by
      intro x hx
      rw [mem_pairDistList] at hx
      obtain ⟨i, j, hij, hjlen, rfl⟩ := hx
      rw [get_all_codewords_length, hkof] at hjlen
      rw [get_all_codewords_getD _ i (by rw [hkof]; omega),
        get_all_codewords_getD _ j (by rw [hkof]; omega), hkof]
      rw [hammingDist_encodeRaw _ _ _ (by rw [bitsOf_length, hkof])
        (by rw [bitsOf_length, hkof])]
      apply hamming_weight_ge_three hr
      -- the two bit vectors differ somewhere
      have hne : bitsOf (2 ^ r - 1 - r) i ≠ bitsOf (2 ^ r - 1 - r) j := by
        intro hcontra
        have := bitsOf_inj (by omega : i < 2 ^ (2 ^ r - 1 - r))
          (by omega : j < 2 ^ (2 ^ r - 1 - r)) hcontra
        omega
      by_contra hc
      push_neg at hc
      apply hne
      apply List.ext_getElem (by rw [bitsOf_length, bitsOf_length])
      intro t ht1 ht2
      have htk : t < 2 ^ r - 1 - r := by rwa [bitsOf_length] at ht1
      have hxt := hc t htk
      rw [xorv_getD ht1 ht2, Nat.mod_mod_of_dvd _ (dvd_refl 2)] at hxt
      have hbi' : (bitsOf (2 ^ r - 1 - r) i).getD t 0 < 2 := by
        rw [List.getD_eq_getElem _ _ ht1]
        exact bitsOf_entry_lt _ i _ (List.getElem_mem ht1)
      have hbj' : (bitsOf (2 ^ r - 1 - r) j).getD t 0 < 2 := by
        rw [List.getD_eq_getElem _ _ ht2]
        exact bitsOf_entry_lt _ j _ (List.getElem_mem ht2)
      rw [← List.getD_eq_getElem _ 0 ht1, ← List.getD_eq_getElem _ 0 ht2]
      omega
    have hge : 3 ≤ (pairDistList (hammingG r)).foldl min (nOf (hammingG r) + 1) := by
      apply le_foldl_min
      · rw [nOf_hammingG hr]
        have := two_pow_ge hr
        omega
      · exact hlow
    -- upper bound: the pair (0, 2^(k-1)) has distance exactly 3
    have hkpos : 0 < 2 ^ r - 1 - r := by omega
    have hi0lt : 2 ^ (2 ^ r - 1 - r - 1) < 2 ^ (2 ^ r - 1 - r) :=
      Nat.pow_lt_pow_right (by norm_num) (by omega)
    have hi0pos : 0 < 2 ^ (2 ^ r - 1 - r - 1) := Nat.pos_pow_of_pos _ (by norm_num)
    have hbits0 : bitsOf (2 ^ r - 1 - r) 0 = List.replicate (2 ^ r - 1 - r) 0 :=
      bitsOf_zero _
    have hbitsi0 : bitsOf (2 ^ r - 1 - r) (2 ^ (2 ^ r - 1 - r - 1))
        = unitCol (2 ^ r - 1 - r) 0 := by
      have h := @bitsOf_two_pow (2 ^ r - 1 - r) 0 (by omega)
      have he : 2 ^ r - 1 - r - 1 - 0 = 2 ^ r - 1 - r - 1 := by omega
      rwa [he] at h
    have hd03 : hammingDist ((get_all_codewords (hammingG r)).getD 0 [])
        ((get_all_codewords (hammingG r)).getD (2 ^ (2 ^ r - 1 - r - 1)) []) = 3 := by
      rw [get_all_codewords_getD _ 0 (by rw [hkof]; omega),
        get_all_codewords_getD _ _ (by rw [hkof]; omega), hkof,
        hammingDist_encodeRaw _ _ _ (by rw [bitsOf_length, hkof])
          (by rw [bitsOf_length, hkof]),
        hbits0, hbitsi0]
      have hxz : xorv (List.replicate (2 ^ r - 1 - r) 0) (unitCol (2 ^ r - 1 - r) 0)
          = unitCol (2 ^ r - 1 - r) 0 := by
        have h := xorv_zero_left (unitCol (2 ^ r - 1 - r) 0) (unitCol_entry_lt _ _)
        rwa [unitCol_length] at h
      rw [hxz]
      exact encode_unitCol_sum hr
    have hmem03 : (3 : Nat) ∈ pairDistList (hammingG r) := by
      rw [mem_pairDistList]
      refine ⟨0, 2 ^ (2 ^ r - 1 - r - 1), by omega, ?_, hd03⟩
      rw [get_all_codewords_length, hkof]
      omega
    have hle := foldl_min_le_mem _ hmem03 (nOf (hammingG r) + 1)
    omega
  have h3 := hgen 3 (by norm_num)
  refine ⟨hgen, ⟨?_, ?_, h3.2.2.2⟩, by decide, by decide, by decide, rfl, rfl⟩
  · rw [h3.2.1]
    norm_num
  · rw [h3.2.2.1]
    norm_num

/-- Witness for C4 at `r = 2` and `r = 3`. -/
theorem C4_hamming_witness :
    hamming_code 2 = some (hammingG 2) ∧
    compute_minimum_distance (hammingG 2) = 3 ∧
    compute_minimum_distance (hammingG 3) = 3 := by
  have h2 := C4_hamming.1 2 (by norm_num)
  exact ⟨h2.1, h2.2.2.2, C4_hamming.2.1.2.2⟩

/-! ### Claim C7 (confirmed) -/

/-- C7: `repetition(n)` for `n ≥ 1` builds the `(n, 1, n)` code whose single
generator row is all ones, with `encode([1])` the all-ones word;
`singleParityCheck(k)` for `k ≥ 1` builds the `(k+1, k, 2)` code whose
codewords append the mod-2 sum of the message bits as a parity bit; each
raises an invalid-parameter error below its threshold. -/
theorem C7_factories :
    (∀ n, 1 ≤ n → repetition_code n = some [List.replicate n 1] ∧
      kOf [List.replicate n 1] = 1 ∧ nOf [List.replicate n 1] = n ∧
      encodeRaw [List.replicate n 1] [1] = List.replicate n 1 ∧
      compute_minimum_distance [List.replicate n 1] = n) ∧
    (∀ k, 1 ≤ k → parity_check_code k = some (parityG k) ∧
      kOf (parityG k) = k ∧ nOf (parityG k) = k + 1 ∧
      (∀ m : List Nat, m.length = k →
        encodeRaw (parityG k) m = mod2v m ++ [m.sum % 2]) ∧
      compute_minimum_distance (parityG k) = 2) ∧
    repetition_code 0 = none ∧ parity_check_code 0 = none := by
  refine ⟨?_, ?_, rfl, rfl⟩
  · -- repetition code
    intro n hn
    have hG : repetition_code n = some [List.replicate n 1] := by
      unfold repetition_code
      rw [if_neg (by omega)]
    have hk : kOf [List.replicate n 1] = 1 := rfl
    have hnn : nOf [List.replicate n 1] = n := by simp [nOf]
    have henc : encodeRaw [List.replicate n 1] [1] = List.replicate n 1 := by
      rw [List.eq_replicate_iff]
      refine ⟨by rw [encodeRaw_length, hnn], ?_⟩
      intro b hb
      simp only [encodeRaw, List.mem_map] at hb
      obtain ⟨j, hj, rfl⟩ := hb
      have hjn : j < n := by
        rw [List.mem_range, hnn] at hj
        exact hj
      have hget : ([List.replicate n 1].getD 0 []).getD j 0 = 1 := by
        simp only [List.getD_cons_zero]
        rw [List.getD_eq_getElem _ _ (by simpa using hjn), List.getElem_replicate]
      have hr1 : List.range 1 = [0] := rfl
      simp only [hk, hr1, List.map_cons, List.map_nil, List.sum_cons, List.sum_nil]
      rw [mod2v_getD, hget]
      simp
    refine ⟨hG, hk, hnn, henc, ?_⟩
    -- minimum distance n : the single pair (0, 1) has distance n
    have hbits0 : bitsOf 1 0 = [0] := rfl
    have hbits1 : bitsOf 1 1 = [1] := rfl
    have hc0 : (get_all_codewords [List.replicate n 1]).getD 0 []
        = List.replicate n 0 := by
      rw [get_all_codewords_getD _ 0 (by rw [hk]; omega), hk, hbits0]
      have := @encodeRaw_zero_msg [List.replicate n 1] 1 hk
      simpa [hnn] using this
    have hc1 : (get_all_codewords [List.replicate n 1]).getD 1 []
        = List.replicate n 1 := by
      rw [get_all_codewords_getD _ 1 (by rw [hk]; omega), hk, hbits1, henc]
    have hlen2 : (get_all_codewords [List.replicate n 1]).length = 2 := by
      rw [get_all_codewords_length, hk]
      norm_num
    have hpairs : pairDistList [List.replicate n 1]
        = [hammingDist ((get_all_codewords [List.replicate n 1]).getD 0 [])
            ((get_all_codewords [List.replicate n 1]).getD 1 [])] := by
      unfold pairDistList
      dsimp only
      rw [hlen2]
      rfl
    rw [compute_minimum_distance_eq_foldl, hpairs, hc0, hc1]
    have hdist : hammingDist (List.replicate n 0) (List.replicate n 1) = n := by
      have h := hammingDist_zero_left (List.replicate n 1)
        (by intro x hx; rw [List.eq_of_mem_replicate hx]; omega)
      rw [List.length_replicate] at h
      rw [h, List.sum_replicate, smul_eq_mul, Nat.mul_one]
    rw [List.foldl_cons, List.foldl_nil, hdist, hnn]
    omega
  · -- single parity check code
    intro k hk
    have hG : parity_check_code k = some (parityG k) := by
      unfold parity_check_code
      rw [if_neg (by omega)]
    refine ⟨hG, kOf_parityG k, nOf_parityG hk, fun m hm => encodeRaw_parityG hk m hm, ?_⟩
    -- minimum distance 2
    have hklen : kOf (parityG k) = k := kOf_parityG k
    have hN : 2 ≤ 2 ^ k := by
      calc 2 = 2 ^ 1 := rfl
      _ ≤ 2 ^ k := Nat.pow_le_pow_right (by norm_num) hk
    rw [compute_minimum_distance_eq_foldl]
    -- lower bound: every pair distance is at least 2
    have hlow : ∀ x ∈ pairDistList (parityG k), 2 ≤ x := by
      intro x hx
      rw [mem_pairDistList] at hx
      obtain ⟨i, j, hij, hjlen, rfl⟩ := hx
      rw [get_all_codewords_length, hklen] at hjlen
      rw [get_all_codewords_getD _ i (by rw [hklen]; omega),
        get_all_codewords_getD _ j (by rw [hklen]; omega), hklen]
      rw [hammingDist_encodeRaw _ _ _ (by rw [bitsOf_length, hklen])
        (by rw [bitsOf_length, hklen])]
      set m := xorv (bitsOf k i) (bitsOf k j) with hmdef
      have hmlen : m.length = k := by
        rw [hmdef, xorv_length, bitsOf_length, bitsOf_length]
        omega
      have hmbin : ∀ b ∈ m, b < 2 := by
        intro b hb
        rw [hmdef] at hb
        simp only [xorv, List.mem_iff_getElem] at hb
        obtain ⟨t, ht, rfl⟩ := hb
        rw [List.getElem_zipWith]
        omega
      rw [encodeRaw_parityG hk m hmlen, List.sum_append, List.sum_cons, List.sum_nil,
        mod2v_of_binary hmbin]
      -- m is nonzero, so its sum is at least 1
      have hne : bitsOf k i ≠ bitsOf k j := by
        intro hcontra
        have := bitsOf_inj (by omega : i < 2 ^ k) (by omega : j < 2 ^ k) hcontra
        omega
      have hsum1 : 1 ≤ m.sum := by
        by_contra hzero
        push_neg at hzero
        apply hne
        apply List.ext_getElem (by rw [bitsOf_length, bitsOf_length])
        intro t ht1 ht2
        have htm : t < m.length := by
          rw [hmlen]
          rwa [bitsOf_length] at ht1
        have ht0 : m.getD t 0 = 0 := by
          rw [List.getD_eq_getElem _ _ htm]
          have hmem : m[t] ∈ m := List.getElem_mem htm
          have hle := List.single_le_sum (fun (x : Nat) _ => Nat.zero_le x) _ hmem
          omega
        rw [hmdef, xorv_getD ht1 ht2] at ht0
        have hbi' : (bitsOf k i).getD t 0 < 2 := by
          rw [List.getD_eq_getElem _ _ ht1]
          exact bitsOf_entry_lt k i _ (List.getElem_mem ht1)
        have hbj' : (bitsOf k j).getD t 0 < 2 := by
          rw [List.getD_eq_getElem _ _ ht2]
          exact bitsOf_entry_lt k j _ (List.getElem_mem ht2)
        rw [← List.getD_eq_getElem _ 0 ht1, ← List.getD_eq_getElem _ 0 ht2]
        omega
      omega
    have hge : 2 ≤ (pairDistList (parityG k)).foldl min (nOf (parityG k) + 1) := by
      apply le_foldl_min
      · rw [nOf_parityG hk]
        omega
      · exact hlow
    -- upper bound: the pair (0, 1) has distance exactly 2
    have hc0 : (get_all_codewords (parityG k)).getD 0 []
        = List.replicate (k + 1) 0 := by
      rw [get_all_codewords_getD _ 0 (by rw [hklen]; omega), hklen, bitsOf_zero]
      have := @encodeRaw_zero_msg (parityG k) k hklen
      rwa [nOf_parityG hk] at this
    have hc1 : (get_all_codewords (parityG k)).getD 1 []
        = unitCol k (k - 1) ++ [1] := by
      rw [get_all_codewords_getD _ 1 (by rw [hklen]; omega), hklen, bitsOf_one hk]
      rw [encodeRaw_parityG hk _ (by rw [unitCol_length])]
      rw [mod2v_of_binary (unitCol_entry_lt k (k - 1)), unitCol_sum (by omega)]
    have hd01 : hammingDist ((get_all_codewords (parityG k)).getD 0 [])
        ((get_all_codewords (parityG k)).getD 1 []) = 2 := by
      rw [hc0, hc1]
      have hlen : (unitCol k (k - 1) ++ [1]).length = k + 1 := by
        rw [List.length_append, unitCol_length]
        rfl
      have h := hammingDist_zero_left (unitCol k (k - 1) ++ [1]) (by
        intro x hx
        rcases List.mem_append.mp hx with h | h
        · exact unitCol_entry_lt _ _ x h
        · rw [List.mem_singleton] at h
          omega)
      rw [hlen] at h
      rw [h, List.sum_append, unitCol_sum (by omega), List.sum_cons, List.sum_nil]
      omega
    have hmem01 : (2 : Nat) ∈ pairDistList (parityG k) := by
      rw [mem_pairDistList]
      refine ⟨0, 1, by omega, ?_, hd01⟩
      rw [get_all_codewords_length, hklen]
      omega
    have hle := foldl_min_le_mem _ hmem01 (nOf (parityG k) + 1)
    omega

/-- Witness for C7 at the spec's example parameters `n = 5`, `k = 4`. -/
theorem C7_factories_witness :
    repetition_code 5 = some [[1, 1, 1, 1, 1]] ∧
    encodeRaw [[1, 1, 1, 1, 1]] [1] = [1, 1, 1, 1, 1] ∧
    compute_minimum_distance [[1, 1, 1, 1, 1]] = 5 ∧
    parity_check_code 4 = some (parityG 4) ∧
    encodeRaw (parityG 4) [1, 1, 0, 0] = [1, 1, 0, 0, 0] ∧
    compute_minimum_distance (parityG 4) = 2 := by
  have hrep := C7_factories.1 5 (by norm_num)
  have hpar := C7_factories.2.1 4 (by norm_num)
  have h5 : List.replicate 5 1 = [1, 1, 1, 1, 1] := rfl
  refine ⟨?_, ?_, ?_, hpar.1, ?_, hpar.2.2.2.2⟩
  · rw [← h5]
    exact hrep.1
  · rw [← h5]
    exact hrep.2.2.2.1
  · rw [← h5]
    exact hrep.2.2.2.2
  · rw [hpar.2.2.2.1 [1, 1, 0, 0] rfl]
    decide

/-- Witness for C9: a same-kind edge fails to construct, and a concretely
built one-edge graph passes the bipartite check. -/
theorem C9_edge_invariant_witness :
    mkAdinkraEdge ⟨.BOSONIC, [0], [0]⟩ ⟨.BOSONIC, [1], [1]⟩ .RED false = none ∧
    (check_adinkra_rules ⟨1, [⟨.BOSONIC, [0], [0]⟩, ⟨.FERMIONIC, [1], [1]⟩],
        [⟨⟨.BOSONIC, [0], [0]⟩, ⟨.FERMIONIC, [1], [1]⟩, .RED, false⟩],
        [⟨.BOSONIC, [0], [0]⟩], [⟨.FERMIONIC, [1], [1]⟩]⟩).bipartite = true :=
  ⟨(C9_edge_invariant.1 _ _ _ _).mpr rfl,
   (C9_edge_invariant.2 1
      [.addEdgeOp ⟨.BOSONIC, [0], [0]⟩ ⟨.FERMIONIC, [1], [1]⟩ .RED false] _ rfl).2⟩

/-! ### C6: the hypercube Adinkra construction -/

theorem insertNode_of_mem {l : List AdinkraNode} {x : AdinkraNode} (h : x ∈ l) :
    insertNode l x = l := by
  unfold insertNode
  rw [if_pos (by rw [contains_eq_decide_mem, decide_eq_true_eq]; exact h)]

theorem insertNode_of_not_mem {l : List AdinkraNode} {x : AdinkraNode} (h : x ∉ l) :
    insertNode l x = l ++ [x] := by
  unfold insertNode
  rw [if_neg (by rw [contains_eq_decide_mem, decide_eq_true_eq]; exact h)]

theorem add_node_nodes (g : AdinkraGraph) (x : AdinkraNode) :
    (add_node g x).nodes = insertNode g.nodes x := rfl

theorem add_edge_nodes {g g' : AdinkraGraph} {e : AdinkraEdge}
    (h : add_edge g e = some g') (hs : e.source ∈ g.nodes) (ht : e.target ∈ g.nodes) :
    g'.nodes = g.nodes := by
  unfold add_edge at h
  split at h
  · exact Option.noConfusion h
  · have h' := Option.some.inj h
    rw [← h']
    show insertNode (insertNode g.nodes e.source) e.target = g.nodes
    rw [insertNode_of_mem hs, insertNode_of_mem ht]

theorem foldl_add_node_nodes :
    ∀ (vs : List (List Nat)) (g : AdinkraGraph),
      (g.nodes ++ vs.map hypercubeNode).Nodup →
      (vs.foldl (fun g v => add_node g (hypercubeNode v)) g).nodes
        = g.nodes ++ vs.map hypercubeNode := by
  intro vs
  induction vs with
  | nil =>
    intro g _
    simp
  | cons v vs ih =>
    intro g hnd
    rw [List.map_cons] at hnd
    have hx : hypercubeNode v ∉ g.nodes := by
      intro hmem
      exact (List.nodup_append.mp hnd).2.2 hmem (List.mem_cons_self _ _)
    have hnd' : ((add_node g (hypercubeNode v)).nodes ++ vs.map hypercubeNode).Nodup := by
      rw [add_node_nodes, insertNode_of_not_mem hx, List.append_assoc,
        List.singleton_append]
      exact hnd
    show (vs.foldl (fun g v => add_node g (hypercubeNode v))
        (add_node g (hypercubeNode v))).nodes = _
    rw [ih _ hnd', add_node_nodes, insertNode_of_not_mem hx, List.map_cons,
      List.append_assoc, List.singleton_append]

theorem hypercubeVertices_nodup (dim : Nat) : (hypercubeVertices dim).Nodup := by
  unfold hypercubeVertices
  refine List.Nodup.map_on ?_ (List.nodup_range _)
  intro x hx y hy hxy
  exact bitsOf_inj (List.mem_range.mp hx) (List.mem_range.mp hy) hxy

theorem hypercubeNodes_nodup (dim : Nat) :
    ((hypercubeVertices dim).map hypercubeNode).Nodup := by
  refine List.Nodup.map_on ?_ (hypercubeVertices_nodup dim)
  intro x _ y _ hxy
  exact congrArg AdinkraNode.position hxy

theorem foldlM_nodes_eq {α : Type _} (N : List AdinkraNode)
    (f : AdinkraGraph → α → Option AdinkraGraph) :
    ∀ (as : List α),
      (∀ g g' a, a ∈ as → g.nodes = N → f g a = some g' → g'.nodes = N) →
      ∀ (g g' : AdinkraGraph), g.nodes = N → as.foldlM f g = some g' → g'.nodes = N := by
  intro as
  induction as with
  | nil =>
    intro _ g g' hg h
    cases h
    exact hg
  | cons a as ih =>
    intro hf g g' hg h
    rw [List.foldlM_cons] at h
    cases hfa : f g a with
    | none => rw [hfa] at h; cases h
    | some g1 =>
      rw [hfa] at h
      exact ih (fun g2 g2' b hb => hf g2 g2' b (List.mem_cons_of_mem _ hb)) g1 g'
        (hf g g1 a (List.mem_cons_self _ _) hg hfa) h

theorem hypercubeEdgeStep_nodes {dim : Nat} {g g' : AdinkraGraph} {v : List Nat}
    (hv : hypercubeNode v ∈ g.nodes)
    (hall : ∀ w ∈ hypercubeVertices dim, hypercubeNode w ∈ g.nodes)
    (h : hypercubeEdgeStep (hypercubeVertices dim) dim g v = some g') :
    g'.nodes = g.nodes := by
  unfold hypercubeEdgeStep at h
  refine foldlM_nodes_eq g.nodes _ (List.range dim) ?_ g g' rfl h
  intro g1 g1' i _ hg1 hstep
  dsimp only at hstep
  split at hstep
  · next hc =>
    have hadj : v.set i (1 - v.getD i 0) ∈ hypercubeVertices dim := by
      rw [contains_eq_decide_mem, decide_eq_true_eq] at hc
      exact hc
    cases hcol : (allColors.take dim)[i]? with
    | none => rw [hcol] at hstep; exact Option.noConfusion hstep
    | some color =>
      rw [hcol] at hstep
      dsimp only at hstep
      cases hmk : mkAdinkraEdge (hypercubeNode v)
          (hypercubeNode (v.set i (1 - v.getD i 0))) color (v.getD i 0 == 1) with
      | none => rw [hmk] at hstep; exact Option.noConfusion hstep
      | some e =>
        rw [hmk] at hstep
        have hstep' : add_edge g1 e = some g1' := hstep
        have he : e.source = hypercubeNode v
            ∧ e.target = hypercubeNode (v.set i (1 - v.getD i 0)) := by
          unfold mkAdinkraEdge at hmk
          split at hmk
          · exact Option.noConfusion hmk
          · have h2 := Option.some.inj hmk
            rw [← h2]
            exact ⟨rfl, rfl⟩
        have hsrc : e.source ∈ g1.nodes := by
          rw [he.1, hg1]
          exact hv
        have htgt : e.target ∈ g1.nodes := by
          rw [he.2, hg1]
          exact hall _ hadj
        exact (add_edge_nodes hstep' hsrc htgt).trans hg1
  · next hc =>
    have h2 := Option.some.inj hstep
    rw [← h2]
    exact hg1

theorem hypercube_nodes_eq :
    ∀ (dim : Nat) (g : AdinkraGraph), create_hypercube_adinkra dim = some g →
      g.nodes = (hypercubeVertices dim).map hypercubeNode := by
  intro dim g h
  unfold create_hypercube_adinkra at h
  dsimp only at h
  have h1 : ((hypercubeVertices dim).foldl (fun g v => add_node g (hypercubeNode v))
      (emptyGraph dim)).nodes = (hypercubeVertices dim).map hypercubeNode := by
    have h2 := foldl_add_node_nodes (hypercubeVertices dim) (emptyGraph dim) (by
      show ([] ++ (hypercubeVertices dim).map hypercubeNode).Nodup
      rw [List.nil_append]
      exact hypercubeNodes_nodup dim)
    rw [h2]
    rw [show (emptyGraph dim).nodes = [] from rfl, List.nil_append]
  refine foldlM_nodes_eq _ _ (hypercubeVertices dim) ?_ _ g h1 h
  intro g1 g1' w hw hg1 hstep
  have hv : hypercubeNode w ∈ g1.nodes := by
    rw [hg1]
    exact List.mem_map_of_mem _ hw
  have hall : ∀ u ∈ hypercubeVertices dim, hypercubeNode u ∈ g1.nodes := by
    intro u hu
    rw [hg1]
    exact List.mem_map_of_mem _ hu
  exact (hypercubeEdgeStep_nodes hv hall hstep).trans hg1

/-- C6 (counterexample): `create_hypercube_adinkra` does not materialize only
one direction of each undirected axis edge.  Already for dimension 1 the
edge set holds both directions of the single axis edge — 2 edges instead of
1 — with the reverse direction dashed. -/
theorem C6_counterexample :
    (create_hypercube_adinkra 1).map (fun g => g.edges) =
      some [⟨hypercubeNode [0], hypercubeNode [1], .RED, false⟩,
            ⟨hypercubeNode [1], hypercubeNode [0], .RED, true⟩] := by
  rfl

set_option maxRecDepth 4000 in
/-- C6 (amended): `create_hypercube_adinkra dim` creates exactly one node per
vertex of the `{0,1}^dim` hypercube, bosonic iff the vertex popcount is
even — but it materializes BOTH directions of every undirected axis edge.
For dimension 3 it yields 8 nodes split 4/4 by parity and 24 directed edges:
every vertex has exactly 3 outgoing axis edges, and the reverse of each edge
(with negated dashing) is also present. -/
theorem C6_amended :
    (∀ (dim : Nat) (g : AdinkraGraph), create_hypercube_adinkra dim = some g →
        g.nodes = (hypercubeVertices dim).map hypercubeNode) ∧
    (∀ v : List Nat, ((hypercubeNode v).field_type = FieldType.BOSONIC ↔ v.sum % 2 = 0)) ∧
    (create_hypercube_adinkra 3).map (fun g =>
        (g.nodes.length, g.bosonic_nodes.length, g.fermionic_nodes.length, g.edges.length))
      = some (8, 4, 4, 24) ∧
    (create_hypercube_adinkra 3).map (fun g => (hypercubeVertices 3).all (fun v =>
        (g.edges.filter (fun e => e.source == hypercubeNode v)).length == 3)) = some true ∧
    (create_hypercube_adinkra 3).map (fun g => g.edges.all (fun e =>
        g.edges.contains ⟨e.target, e.source, e.color, !e.dashed⟩)) = some true := by
  refine ⟨hypercube_nodes_eq, ?_, by rfl, by rfl, by rfl⟩
  intro v
  unfold hypercubeNode
  by_cases h : v.sum % 2 = 0
  · rw [if_pos h]
    simp [h]
  · rw [if_neg h]
    simp [h]

/-- Witness for C6 at dimension 1, discharging the hypotheses of the general
conjuncts at concrete inputs. -/
theorem C6_amended_witness :
    ((create_hypercube_adinkra 1).getD (emptyGraph 0)).nodes
        = (hypercubeVertices 1).map hypercubeNode ∧
    ((hypercubeNode [1]).field_type = FieldType.BOSONIC ↔ [1].sum % 2 = 0) := by
  refine ⟨C6_amended.1 1 ((create_hypercube_adinkra 1).getD (emptyGraph 0)) ?_,
    C6_amended.2.1 [1]⟩
  rfl

/-! ### The LinearBlockCode constructor's error path, and claims C5 and C10 -/

theorem kOf_mod2m (G : List (List Nat)) : kOf (mod2m G) = kOf G := by
  simp [kOf, mod2m]

theorem nOf_mod2m (G : List (List Nat)) : nOf (mod2m G) = nOf G := by
  cases G with
  | nil => rfl
  | cons r rs =>
    show (mod2v r).length = r.length
    simp [mod2v]

theorem foldlM_guard {α : Type _} (f : α → Nat → α) (n : Nat) :
    ∀ (l : List Nat) (A : α),
      l.foldlM (fun M i => if i < n then some (f M i) else none) A
        = if l.all (fun i => i < n) then some (l.foldl f A) else none := by
  intro l
  induction l with
  | nil =>
    intro A
    rfl
  | cons x xs ih =>
    intro A
    by_cases hx : x < n
    · have hd : decide (x < n) = true := by simpa using hx
      have h1 : (x :: xs).foldlM
          (fun M i => if i < n then some (f M i) else none) A
          = xs.foldlM (fun M i => if i < n then some (f M i) else none) (f A x) := by
        rw [List.foldlM_cons]
        rw [if_pos hx]
        rfl
      rw [h1, ih (f A x), List.all_cons, hd, Bool.true_and, List.foldl_cons]
    · have hd : decide (x < n) = false := by simpa using hx
      have h1 : (x :: xs).foldlM
          (fun M i => if i < n then some (f M i) else none) A
          = none := by
        rw [List.foldlM_cons]
        rw [if_neg hx]
        rfl
      rw [h1, List.all_cons, hd, Bool.false_and]
      rfl

theorem range_all_lt (k n : Nat) :
    (List.range k).all (fun i => i < n) = decide (k ≤ n) := by
  by_cases h : k ≤ n
  · have hd : decide (k ≤ n) = true := by simpa using h
    rw [hd, List.all_eq_true]
    intro i hi
    simpa using Nat.lt_of_lt_of_le (List.mem_range.mp hi) h
  · have hd : decide (k ≤ n) = false := by simpa using h
    rw [hd, List.all_eq_false]
    refine ⟨n, List.mem_range.mpr (by omega), by simp⟩

theorem gaussElimM_eq (k n : Nat) (A : List (List Nat)) :
    gaussElimM k n A
      = if k ≤ n then some ((List.range k).foldl (elimStep k) A) else none := by
  unfold gaussElimM
  rw [foldlM_guard (elimStep k) n (List.range k) A, range_all_lt]
  by_cases h : k ≤ n
  · rw [if_pos (by simpa using h : decide (k ≤ n) = true), if_pos h]
  · rw [if_neg (by simpa using h : ¬ decide (k ≤ n) = true), if_neg h]

theorem compute_parity_check_matrixM_eq (G : List (List Nat)) :
    compute_parity_check_matrixM G
      = if kOf G ≤ nOf G then some (compute_parity_check_matrix G) else none := by
  unfold compute_parity_check_matrixM
  rw [gaussElimM_eq]
  by_cases h : kOf G ≤ nOf G
  · rw [if_pos h, if_pos h]
    rfl
  · rw [if_neg h, if_neg h]
    rfl

theorem mkLinearBlockCode_eq (G : List (List Nat)) :
    mkLinearBlockCode G = if kOf G ≤ nOf G then some (mod2m G) else none := by
  unfold mkLinearBlockCode
  rw [compute_parity_check_matrixM_eq, kOf_mod2m, nOf_mod2m]
  by_cases h : kOf G ≤ nOf G
  · rw [if_pos h, if_pos h]
    rfl
  · rw [if_neg h, if_neg h]
    rfl

theorem structureBits_entry_lt (g : AdinkraGraph) (c : EdgeColor) :
    ∀ x ∈ structureBits g c, x < 2 := by
  intro x hx
  simp only [structureBits, List.mem_map] at hx
  obtain ⟨y, _, rfl⟩ := hx
  split
  · omega
  · omega

theorem dashingBits_entry_lt (g : AdinkraGraph) (c : EdgeColor) (len : Nat) :
    ∀ x ∈ dashingBits g c len, x < 2 := by
  intro x hx
  simp only [dashingBits] at hx
  have hx2 := List.mem_of_mem_take hx
  rcases List.mem_append.mp hx2 with h1 | h1
  · simp only [List.mem_map] at h1
    obtain ⟨e, _, rfl⟩ := h1
    split
    · omega
    · omega
  · rw [List.eq_of_mem_replicate h1]
    omega

theorem to_codeword_row_entry_lt (g : AdinkraGraph) (c : EdgeColor) :
    ∀ x ∈ to_codeword_row g c, x < 2 := by
  intro x hx
  simp only [to_codeword_row] at hx
  rcases List.mem_append.mp hx with h1 | h1
  · exact structureBits_entry_lt g c x h1
  · exact dashingBits_entry_lt g c _ x h1

theorem mod2m_of_binary {M : List (List Nat)} (h : ∀ row ∈ M, ∀ x ∈ row, x < 2) :
    mod2m M = M := by
  unfold mod2m
  conv_rhs => rw [← List.map_id M]
  apply List.map_congr_left
  intro row hrow
  rw [mod2v_of_binary (h row hrow)]
  rfl

theorem to_linear_code_eq (g : AdinkraGraph) (h : available_colors g ≠ []) :
    to_linear_code g
      = if (available_colors g).length
            ≤ 2 * g.bosonic_nodes.length * g.fermionic_nodes.length
        then some ((sortColorsByValue (available_colors g)).map (to_codeword_row g))
        else none := by
  unfold to_linear_code
  have hrep : to_codeword_representation g
      = (available_colors g).map (fun c => (c, to_codeword_row g c)) := rfl
  have hne1 : (to_codeword_representation g).isEmpty = false := by
    rw [hrep, List.isEmpty_eq_false_iff_exists_mem]
    obtain ⟨c, hc⟩ := List.exists_mem_of_ne_nil _ h
    exact ⟨(c, to_codeword_row g c), List.mem_map_of_mem _ hc⟩
  have hrows : (sortColorsByValue (available_colors g)).filterMap
      (fun c => (to_codeword_representation g).lookup c)
      = (sortColorsByValue (available_colors g)).map (to_codeword_row g) := by
    apply filterMap_eq_map_of_some
    intro c hc
    rw [hrep]
    exact lookup_map_pair _ _ c ((mem_sortBy _ c _).mp hc)
  have hne2 : ((sortColorsByValue (available_colors g)).map (to_codeword_row g)).isEmpty
      = false := by
    rw [List.isEmpty_eq_false_iff_exists_mem]
    obtain ⟨c, hc⟩ := List.exists_mem_of_ne_nil _ h
    exact ⟨to_codeword_row g c, List.mem_map_of_mem _ ((mem_sortBy _ c _).mpr hc)⟩
  simp only [hne1, Bool.false_eq_true, if_false, hrows, hne2]
  have hconst : ∀ x ∈ ((sortColorsByValue (available_colors g)).map (to_codeword_row g)).map
      List.length, x = 2 * g.bosonic_nodes.length * g.fermionic_nodes.length := by
    intro x hx
    simp only [List.map_map, List.mem_map] at hx
    obtain ⟨c, _, rfl⟩ := hx
    exact to_codeword_row_length g c
  have hmax : (((sortColorsByValue (available_colors g)).map (to_codeword_row g)).map
      List.length).foldl max 0 = 2 * g.bosonic_nodes.length * g.fermionic_nodes.length := by
    rw [foldl_max_all_eq _ ?hne hconst 0]
    · exact Nat.max_eq_right (Nat.zero_le _)
    case hne =>
      intro hcontra
      rw [List.map_eq_nil_iff, List.map_eq_nil_iff] at hcontra
      have h0 : (available_colors g).length = 0 := by
        have h1 : (sortColorsByValue (available_colors g)).length = 0 := by
          rw [hcontra]
          rfl
        rwa [show sortColorsByValue (available_colors g)
            = sortBy (fun a b => decide (a.value ≤ b.value)) (available_colors g) from rfl,
          length_sortBy] at h1
      exact h (List.eq_nil_of_length_eq_zero h0)
  rw [hmax]
  have hid : List.map (fun row => row ++ List.replicate
      (2 * g.bosonic_nodes.length * g.fermionic_nodes.length - row.length) 0)
      ((sortColorsByValue (available_colors g)).map (to_codeword_row g))
      = List.map id ((sortColorsByValue (available_colors g)).map (to_codeword_row g)) := by
    apply List.map_congr_left
    intro row hrow
    simp only [List.mem_map] at hrow
    obtain ⟨c, _, rfl⟩ := hrow
    rw [to_codeword_row_length, Nat.sub_self, List.replicate_zero, List.append_nil]
    rfl
  rw [hid, List.map_id, mkLinearBlockCode_eq]
  have hk : kOf ((sortColorsByValue (available_colors g)).map (to_codeword_row g))
      = (available_colors g).length := by
    show ((sortColorsByValue (available_colors g)).map (to_codeword_row g)).length = _
    rw [List.length_map,
      show sortColorsByValue (available_colors g)
          = sortBy (fun a b => decide (a.value ≤ b.value)) (available_colors g) from rfl,
      length_sortBy]
  obtain ⟨c0, cs, hcons⟩ : ∃ c0 cs, sortColorsByValue (available_colors g) = c0 :: cs := by
    rcases hlist : sortColorsByValue (available_colors g) with _ | ⟨c0, cs⟩
    · exfalso
      have h0 : (available_colors g).length = 0 := by
        have h1 : (sortColorsByValue (available_colors g)).length = 0 := by
          rw [hlist]
          rfl
        rwa [show sortColorsByValue (available_colors g)
            = sortBy (fun a b => decide (a.value ≤ b.value)) (available_colors g) from rfl,
          length_sortBy] at h1
      exact h (List.eq_nil_of_length_eq_zero h0)
    · exact ⟨c0, cs, rfl⟩
  have hn : nOf ((sortColorsByValue (available_colors g)).map (to_codeword_row g))
      = 2 * g.bosonic_nodes.length * g.fermionic_nodes.length := by
    rw [hcons]
    show (to_codeword_row g c0).length = _
    exact to_codeword_row_length g c0
  rw [hk, hn]
  by_cases hkn : (available_colors g).length
      ≤ 2 * g.bosonic_nodes.length * g.fermionic_nodes.length
  · rw [if_pos hkn, if_pos hkn]
    congr 1
    apply mod2m_of_binary
    intro row hrow
    simp only [List.mem_map] at hrow
    obtain ⟨c, _, rfl⟩ := hrow
    exact to_codeword_row_entry_lt g c
  · rw [if_neg hkn, if_neg hkn]

/-- C5 (counterexample): the claim says `to_linear_code` on a graph with no
edges fails with an empty-input error and never silently returns a code
built from all-zero rows.  But a dimension-1 graph holding one bosonic and
one fermionic node and NO edges silently succeeds, returning a
`LinearBlockCode` whose generator matrix is the single all-zero row
`[0, 0]`. -/
theorem C5_counterexample :
    (add_node (add_node (emptyGraph 1) ⟨.BOSONIC, [0], [0]⟩)
        ⟨.FERMIONIC, [1], [1]⟩).edges = [] ∧
    to_linear_code (add_node (add_node (emptyGraph 1) ⟨.BOSONIC, [0], [0]⟩)
        ⟨.FERMIONIC, [1], [1]⟩) = some [[0, 0]] := by
  decide

/-- C5 (amended): `to_linear_code` raises the empty-input `ValueError` iff
the graph has no available colors (dimension 0).  With at least one
available color it never raises that error; instead the `LinearBlockCode`
constructor raises an IndexError exactly when the generator matrix has more
rows than columns, i.e. when `2·|bosonic|·|fermionic|` is smaller than the
number of available colors — in particular on every colored graph missing
one of the two node kinds. -/
theorem C5_amended_empty_error (g : AdinkraGraph) :
    (available_colors g = [] → to_linear_code g = none) ∧
    (available_colors g ≠ [] →
      (to_linear_code g = none
        ↔ 2 * g.bosonic_nodes.length * g.fermionic_nodes.length
            < (available_colors g).length)) := by
  constructor
  · intro h
    unfold to_linear_code
    simp [to_codeword_representation, h]
  · intro hne
    rw [to_linear_code_eq g hne]
    by_cases hkn : (available_colors g).length
        ≤ 2 * g.bosonic_nodes.length * g.fermionic_nodes.length
    · rw [if_pos hkn]
      constructor
      · intro hc
        cases hc
      · intro hlt
        omega
    · rw [if_neg hkn]
      constructor
      · intro _
        omega
      · intro _
        rfl

/-- Witness for C5: the empty-input error at dimension 0, and the
constructor IndexError at the node-free dimension-1 graph. -/
theorem C5_amended_witness :
    to_linear_code (emptyGraph 0) = none ∧
    (to_linear_code (emptyGraph 1) = none
      ↔ 2 * (emptyGraph 1).bosonic_nodes.length * (emptyGraph 1).fermionic_nodes.length
          < (available_colors (emptyGraph 1)).length) :=
  ⟨(C5_amended_empty_error (emptyGraph 0)).1 (by decide),
   (C5_amended_empty_error (emptyGraph 1)).2 (by decide)⟩

end ECC
